import Mathlib

/-!
Verification of the sparse-matrix library (`sparse_matrix.hpp` /
`sparse_matrix.cpp`, namespace `algebra`).

The C++ `Matrix<T, Order>` class is embedded shallowly: `std::size_t`
becomes `Nat`, the ordered coordinate map `std::map<std::array<size_t,2>, T,
CompareHelper<Order>>` becomes a strictly-sorted association list, the three
packed vectors become lists, and every member function is translated into a
pure Lean function over this state.  Unchecked vector indexing (`v[k]`) is
modelled with `List.getD _ 0`; every theorem below that relies on such a read
carries hypotheses under which the read is in range, matching the C++
preconditions.  Checked access (`std::vector::at`) and `throw` statements are
modelled with `Except`.
-/

namespace algebra

/-- The `enum class StorageOrder` from `sparse_matrix.hpp`. -/
inductive StorageOrder : Type
  | RowOrdering
  | ColumnOrdering
deriving DecidableEq

/-- Model of `CompareHelper<Order>::operator()` from `sparse_matrix.hpp`: the strict
ordering on coordinate pairs, lexicographic with the major axis chosen by the
storage order. -/
def keyLt (ord : StorageOrder) (a b : Nat × Nat) : Bool :=
  match ord with
  | .RowOrdering => decide (a.1 < b.1 ∨ (a.1 = b.1 ∧ a.2 < b.2))
  | .ColumnOrdering => decide (a.2 < b.2 ∨ (a.2 = b.2 ∧ a.1 < b.1))

/-- The major-axis coordinate of a key: the row for row ordering, the column
for column ordering. -/
def major (ord : StorageOrder) (c : Nat × Nat) : Nat :=
  match ord with
  | .RowOrdering => c.1
  | .ColumnOrdering => c.2

/-- The minor-axis coordinate of a key. -/
def minor (ord : StorageOrder) (c : Nat × Nat) : Nat :=
  match ord with
  | .RowOrdering => c.2
  | .ColumnOrdering => c.1

/-- Rebuild a coordinate from its major- and minor-axis components, as
`uncompress` does (`{i, col_index}` resp. `{row_index, j}`). -/
def coordOf (ord : StorageOrder) (idx mn : Nat) : Nat × Nat :=
  match ord with
  | .RowOrdering => (idx, mn)
  | .ColumnOrdering => (mn, idx)

/-- The state of `Matrix<T, Order>`: the `compressed` flag, the dimensions,
the ordered map `uncompressed_data` and the three packed arrays. -/
structure Matrix (α : Type) : Type where
  compressed : Bool
  numrows : Nat
  numcols : Nat
  uncompressed_data : List ((Nat × Nat) × α)
  compressed_inner : List Nat
  compressed_outer : List Nat
  compressed_data : List α
deriving DecidableEq

variable {α : Type}

/-- The constructor `Matrix(rows, cols)`: uncompressed, empty contents. -/
def init (rows cols : Nat) : Matrix α :=
  { compressed := false, numrows := rows, numcols := cols,
    uncompressed_data := [], compressed_inner := [],
    compressed_outer := [], compressed_data := [] }

/-- Model of `Matrix::resize` (`sparse_matrix.cpp:304`): sets the dimensions verbatim,
and only when the matrix is uncompressed. -/
def resize (m : Matrix α) (rows cols : Nat) : Matrix α :=
  if m.compressed then m else { m with numrows := rows, numcols := cols }

/-- Insertion/assignment into the ordered map, as performed by
`uncompressed_data[{i,j}] = v`: keys are compared with `keyLt`, equivalent
keys (neither less) are overwritten. -/
def mapInsert (ord : StorageOrder) (k : Nat × Nat) (v : α) :
    List ((Nat × Nat) × α) → List ((Nat × Nat) × α)
  | [] => [(k, v)]
  | e :: t =>
    if keyLt ord k e.1 then (k, v) :: e :: t
    else if keyLt ord e.1 k then e :: mapInsert ord k v t
    else (e.1, v) :: t

/-- The entries of one major stripe, in map order: what the
`lower_bound`/`upper_bound` range `[{idx,0}, {idx,SIZE_MAX}]` (resp. its
column-ordering dual) walks in `compress`. -/
def stripe (ord : StorageOrder) (l : List ((Nat × Nat) × α)) (idx : Nat) :
    List ((Nat × Nat) × α) :=
  l.filter (fun e => major ord e.1 == idx)

/-- The `while(idx != sz)` loop of `Matrix::compress`
(`sparse_matrix.cpp:169-200`) together with the trailing
`compressed_inner.push_back(count)`: given the running element counter
`count`, the current stripe `idx` and the number `rem` of stripes still to
walk, returns the `(inner, outer, data)` still to be pushed. -/
def compressGo (ord : StorageOrder) (l : List ((Nat × Nat) × α)) :
    Nat → Nat → Nat → List Nat × List Nat × List α
  | count, _, 0 => ([count], [], [])
  | count, idx, rem + 1 =>
    let s := stripe ord l idx
    let r := compressGo ord l (count + s.length) (idx + 1) rem
    (count :: r.1, s.map (fun e => minor ord e.1) ++ r.2.1,
      s.map (fun e => e.2) ++ r.2.2)

/-- The size `sz` in `Matrix::compress`: `numrows` for row ordering, `numcols` for
column ordering. -/
def majorDim (ord : StorageOrder) (m : Matrix α) : Nat :=
  match ord with
  | .RowOrdering => m.numrows
  | .ColumnOrdering => m.numcols

/-- The extent of the minor axis: `numcols` for row ordering, `numrows` for
column ordering. -/
def minorDim (ord : StorageOrder) (m : Matrix α) : Nat :=
  match ord with
  | .RowOrdering => m.numcols
  | .ColumnOrdering => m.numrows

/-- Model of `Matrix::compress` (`sparse_matrix.cpp:139-205`): no-op when already
compressed, otherwise packs the map into the three arrays, clears the map and
sets the flag.  The dead read `auto coords = start->first;` before the loop
does not influence the result and is modelled separately by
`compressChecked`. -/
def compress (ord : StorageOrder) (m : Matrix α) : Matrix α :=
  if m.compressed then m
  else
    let r := compressGo ord m.uncompressed_data 0 0 (majorDim ord m)
    { m with
      compressed := true
      uncompressed_data := []
      compressed_inner := r.1
      compressed_outer := r.2.1
      compressed_data := r.2.2 }

/-- Model of `Matrix::compress` including the unconditional
`auto coords = start->first;` executed before the stripe loop
(`sparse_matrix.cpp:167`): when the map is empty, `start` equals
`uncompressed_data.end()` and the dereference has no defined result, modelled
as `none`. -/
def compressChecked (ord : StorageOrder) (m : Matrix α) : Option (Matrix α) :=
  if m.compressed then some m
  else
    match m.uncompressed_data with
    | [] => none
    | _ :: _ => some (compress ord m)

/-- The slice `compressed_outer[inner[idx] .. inner[idx+1])` of one major
stripe, the range walked by `compressed_access` and the packed kernels. -/
def sliceOuter (m : Matrix α) (idx : Nat) : List Nat :=
  let s := m.compressed_inner.getD idx 0
  let e := m.compressed_inner.getD (idx + 1) 0
  (m.compressed_outer.drop s).take (e - s)

/-- Model of `std::find` over a slice: the relative position of the first occurrence
of `j`, if any. -/
def findInSlice (j : Nat) : List Nat → Option Nat
  | [] => none
  | x :: t => if x = j then some 0 else (findInSlice j t).map (· + 1)

/-- Model of `Matrix::compressed_access` (`sparse_matrix.cpp:13-21`): searches
`compressed_outer[inner[i] .. inner[i+1])` for `j` and returns the absolute
index into `compressed_outer`/`compressed_data` when found. -/
def compressed_access (m : Matrix α) (i j : Nat) : Option Nat :=
  (findInSlice j (sliceOuter m i)).map (fun r => m.compressed_inner.getD i 0 + r)

/-- The failure modes of the member functions modelled here.
`structurallyImmutable` is the `std::out_of_range("Matrix in compressed
form, cannot add new elements!")` thrown by the mutable accessor,
`indexOutOfRange` the `std::out_of_range("Index out of boundary")` of the
const accessor, `dimensionMismatch` the `std::invalid_argument` of the
matrix-matrix product, and `atOutOfRange` a failing bound check inside
`std::vector::at`. -/
inductive MatError : Type
  | indexOutOfRange
  | structurallyImmutable
  | dimensionMismatch
  | atOutOfRange
deriving DecidableEq

deriving instance DecidableEq for Except

/-- The const accessor `Matrix::operator() const`
(`sparse_matrix.cpp:87-134`): throws when out of bounds, looks the
coordinate up in the map (uncompressed) or via `compressed_access` (packed),
returning the default value `T{}` when the coordinate stores nothing. -/
def constAccess [Zero α] (ord : StorageOrder) (m : Matrix α) (i j : Nat) :
    Except MatError α :=
  if i ≥ m.numrows ∨ j ≥ m.numcols then .error .indexOutOfRange
  else if m.compressed = false then
    match m.uncompressed_data.find? (fun e => e.1.1 == i && e.1.2 == j) with
    | some e => .ok e.2
    | none => .ok 0
  else
    match (match ord with
           | .RowOrdering => compressed_access m i j
           | .ColumnOrdering => compressed_access m j i) with
    | some k =>
      if k < m.compressed_data.length then .ok (m.compressed_data.getD k 0)
      else .error .atOutOfRange
    | none => .ok 0

/-- The mutable accessor `Matrix::operator()` (`sparse_matrix.cpp:42-82`)
followed by an assignment through the returned reference, i.e. the statement
`m(i,j) = v`.  Uncompressed: calls `resize(i,j)` when the coordinate is out
of bounds, then writes through the map.  Compressed: only an existing entry
may be overwritten, anything else throws. -/
def tryWrite (ord : StorageOrder) (m : Matrix α) (i j : Nat) (v : α) :
    Except MatError (Matrix α) :=
  if m.compressed = false then
    let m1 := if i ≥ m.numrows ∨ j ≥ m.numcols then resize m i j else m
    .ok { m1 with uncompressed_data := mapInsert ord (i, j) v m1.uncompressed_data }
  else if i ≥ m.numrows ∨ j ≥ m.numcols then .error .structurallyImmutable
  else
    match (match ord with
           | .RowOrdering => compressed_access m i j
           | .ColumnOrdering => compressed_access m j i) with
    | some k =>
      if k < m.compressed_data.length then
        .ok { m with compressed_data := m.compressed_data.set k v }
      else .error .atOutOfRange
    | none => .error .structurallyImmutable

/-- Whether the packed representation stores an entry at `(i, j)`: the
coordinate is in bounds and the minor coordinate occurs in the outer slice
of its major stripe. -/
def hasEntryPackedB (ord : StorageOrder) (m : Matrix α) (i j : Nat) : Bool :=
  decide (i < m.numrows) && decide (j < m.numcols) &&
    (match ord with
     | .RowOrdering => decide (j ∈ sliceOuter m i)
     | .ColumnOrdering => decide (i ∈ sliceOuter m j))

/-- Model of `Matrix::uncompress` (`sparse_matrix.cpp:210-250`): walks every major
stripe, re-inserts `(coordOf idx outer[k]) ↦ data[k]` into the map and
clears the packed arrays. -/
def uncompress [Zero α] (ord : StorageOrder) (m : Matrix α) : Matrix α :=
  if m.compressed = false then m
  else
    let mp := (List.range (majorDim ord m)).foldl
      (fun acc i =>
        let s := m.compressed_inner.getD i 0
        let e := m.compressed_inner.getD (i + 1) 0
        (List.range' s (e - s)).foldl
          (fun acc k =>
            mapInsert ord (coordOf ord i (m.compressed_outer.getD k 0))
              (m.compressed_data.getD k 0) acc)
          acc)
      []
    { m with
      compressed := false
      uncompressed_data := mp
      compressed_inner := []
      compressed_outer := []
      compressed_data := [] }

/-- Model of `operator*(Matrix, vector)` (`sparse_matrix.hpp:91-135`): the result is
initialised to `numrows` zeros; uncompressed, every stored entry contributes
`value * vec[j]` to `result[i]`; packed, the CSR (row ordering) or CSC
(column ordering) kernel runs. -/
def matVec [Zero α] [Add α] [Mul α] (ord : StorageOrder) (m : Matrix α)
    (v : List α) : List α :=
  let res0 : List α := List.replicate m.numrows 0
  if m.compressed = false then
    m.uncompressed_data.foldl
      (fun res e => res.set e.1.1 (res.getD e.1.1 0 + e.2 * v.getD e.1.2 0))
      res0
  else
    match ord with
    | .RowOrdering =>
      (List.range m.numrows).foldl
        (fun res i =>
          let s := m.compressed_inner.getD i 0
          let e := m.compressed_inner.getD (i + 1) 0
          (List.range' s (e - s)).foldl
            (fun res k =>
              res.set i (res.getD i 0 +
                m.compressed_data.getD k 0 * v.getD (m.compressed_outer.getD k 0) 0))
            res)
        res0
    | .ColumnOrdering =>
      (List.range m.numcols).foldl
        (fun res j =>
          let s := m.compressed_inner.getD j 0
          let e := m.compressed_inner.getD (j + 1) 0
          (List.range' s (e - s)).foldl
            (fun res k =>
              res.set (m.compressed_outer.getD k 0)
                (res.getD (m.compressed_outer.getD k 0) 0 +
                  m.compressed_data.getD k 0 * v.getD j 0))
            res)
        res0

/-- Model of `operator*(Matrix, Matrix)` (`sparse_matrix.hpp:138-157`): requires the
right operand to have one column, gathers its stored values (`compressed_data[i]`
for `i < numrows` when packed, the map values in order when expanded) into a
plain vector and multiplies. -/
def matMatMul [Zero α] [Add α] [Mul α] (ord : StorageOrder) (a b : Matrix α) :
    Except MatError (List α) :=
  if b.numcols ≠ 1 then .error .dimensionMismatch
  else
    let vecColumn :=
      if b.compressed then
        (List.range b.numrows).map (fun i => b.compressed_data.getD i 0)
      else b.uncompressed_data.map (fun e => e.2)
    .ok (matVec ord a vecColumn)

/-- The logical value at `(i, j)`: the stored value when present, otherwise
zero (invariant I2 of the spec). -/
def lookupD [Zero α] (l : List ((Nat × Nat) × α)) (i j : Nat) : α :=
  match l.find? (fun e => e.1.1 == i && e.1.2 == j) with
  | some e => e.2
  | none => 0

/-- The dense column of logical values of a one-column matrix. -/
def logicalColumn [Zero α] (b : Matrix α) : List α :=
  (List.range b.numrows).map (fun k => lookupD b.uncompressed_data k 0)

/-- Model of `std::max(a, b, complexLess)` as used by the norm kernels: compares by
magnitude; on the integers modelling the `double` instantiation this is
`if |a| < |b| then b else a`. -/
def maxByAbs (a b : ℤ) : ℤ := if |a| < |b| then b else a

/-- Model of `*std::max_element(v.begin(), v.end(), complexLess)`: the first element
of greatest magnitude.  On an empty vector `max_element` returns `end()` and
the dereference has no defined result, modelled as `none`. -/
def maxElemByAbs : List ℤ → Option ℤ
  | [] => none
  | h :: t => some (t.foldl maxByAbs h)

/-- The absolute-value sum of one major stripe of the map, as accumulated by
the `lower_bound`/`upper_bound` loops of the expanded `Infinity` (row
ordering) and `One` (column ordering) kernels. -/
def absStripeSumExp (ord : StorageOrder) (m : Matrix ℤ) (idx : Nat) : ℤ :=
  (stripe ord m.uncompressed_data idx).foldl (fun s e => s + |e.2|) 0

/-- The absolute-value sum of one packed stripe,
`Σ |compressed_data[k]|` for `k ∈ [inner[idx], inner[idx+1])`. -/
def absStripeSumPacked (m : Matrix ℤ) (idx : Nat) : ℤ :=
  let s := m.compressed_inner.getD idx 0
  let e := m.compressed_inner.getD (idx + 1) 0
  (List.range' s (e - s)).foldl (fun a k => a + |m.compressed_data.getD k 0|) 0

/-- The column-sums vector `norms` of the expanded row-ordering `One` kernel
(`sparse_matrix.cpp:453-456`): size `numcols`, `norms[coords[1]] += |value|`
over all stored entries. -/
def expColAbsSums (m : Matrix ℤ) : List ℤ :=
  m.uncompressed_data.foldl
    (fun ns e => ns.set e.1.2 (ns.getD e.1.2 0 + |e.2|))
    (List.replicate m.numcols 0)

/-- The row-sums vector `norms` of the expanded column-ordering `Infinity`
kernel (`sparse_matrix.cpp:495-498`). -/
def expRowAbsSums (m : Matrix ℤ) : List ℤ :=
  m.uncompressed_data.foldl
    (fun ns e => ns.set e.1.1 (ns.getD e.1.1 0 + |e.2|))
    (List.replicate m.numrows 0)

/-- The column-sums vector `norms` of the packed row-ordering `One` kernel
(`sparse_matrix.cpp:389-394`): scatter `|compressed_data[k]|` at
`compressed_outer[k]` while walking the row stripes. -/
def packedColAbsSums (m : Matrix ℤ) : List ℤ :=
  (List.range m.numrows).foldl
    (fun ns i =>
      let s := m.compressed_inner.getD i 0
      let e := m.compressed_inner.getD (i + 1) 0
      (List.range' s (e - s)).foldl
        (fun ns k =>
          ns.set (m.compressed_outer.getD k 0)
            (ns.getD (m.compressed_outer.getD k 0) 0 + |m.compressed_data.getD k 0|))
        ns)
    (List.replicate m.numcols 0)

/-- The row-sums vector `norms` of the packed column-ordering `Infinity`
kernel (`sparse_matrix.cpp:429-434`). -/
def packedRowAbsSums (m : Matrix ℤ) : List ℤ :=
  (List.range m.numcols).foldl
    (fun ns j =>
      let s := m.compressed_inner.getD j 0
      let e := m.compressed_inner.getD (j + 1) 0
      (List.range' s (e - s)).foldl
        (fun ns k =>
          ns.set (m.compressed_outer.getD k 0)
            (ns.getD (m.compressed_outer.getD k 0) 0 + |m.compressed_data.getD k 0|))
        ns)
    (List.replicate m.numrows 0)

/-- Model of `Matrix::norm<NormType::One>` (`sparse_matrix.cpp:370-504`), for the
`double` instantiation modelled over `ℤ`: four kernels selected by
representation and storage order.  The two kernels built on `max_element`
over a sums vector are partial (`none` models dereferencing `end()` of an
empty vector); the two running-maximum loops are total. -/
def normOne (ord : StorageOrder) (m : Matrix ℤ) : Option ℤ :=
  if m.compressed then
    match ord with
    | .RowOrdering => maxElemByAbs (packedColAbsSums m)
    | .ColumnOrdering =>
      some ((List.range m.numcols).foldl
        (fun nv j => maxByAbs nv (absStripeSumPacked m j)) 0)
  else
    match ord with
    | .RowOrdering => maxElemByAbs (expColAbsSums m)
    | .ColumnOrdering =>
      some ((List.range m.numcols).foldl
        (fun nv j => maxByAbs nv (absStripeSumExp .ColumnOrdering m j)) 0)

/-- Model of `Matrix::norm<NormType::Infinity>`, modelled like `normOne`. -/
def normInf (ord : StorageOrder) (m : Matrix ℤ) : Option ℤ :=
  if m.compressed then
    match ord with
    | .RowOrdering =>
      some ((List.range m.numrows).foldl
        (fun nv i => maxByAbs nv (absStripeSumPacked m i)) 0)
    | .ColumnOrdering => maxElemByAbs (packedRowAbsSums m)
  else
    match ord with
    | .RowOrdering =>
      some ((List.range m.numrows).foldl
        (fun nv i => maxByAbs nv (absStripeSumExp .RowOrdering m i)) 0)
    | .ColumnOrdering => maxElemByAbs (expRowAbsSums m)

/-- The accumulated sum of squared magnitudes of
`Matrix::norm<NormType::Frobenius>`: the value of `norm_value` just before
`std::sqrt` is applied.  The returned norm is `Real.sqrt` of this sum. -/
def frobeniusSq (m : Matrix ℤ) : ℤ :=
  if m.compressed then
    m.compressed_data.foldl (fun s v => s + |v| * |v|) 0
  else
    m.uncompressed_data.foldl (fun s e => s + |e.2| * |e.2|) 0

/-- The error outcomes of `Matrix::read`: `dimLineFormat` is the
`std::runtime_error("Error during the reading")` thrown when the dimension
line does not yield three tokens, `numConv` the exception thrown by
`std::stoul` / `std::stod` on a token without a numeric prefix. -/
inductive ReadErr : Type
  | dimLineFormat
  | numConv
deriving DecidableEq

/-- The empty string, used as the default token. -/
def emptyLine : String := ""

/-- The check `line[0] == '%'`: whether a line is a comment line (an empty line reads
the terminating null character, which is not `%`). -/
def firstCharIsPct (l : String) : Bool :=
  match l.data with
  | [] => false
  | c :: _ => c == '%'

/-- Splitter for `istringstream >> std::string`: runs of non-space
characters; `cur` holds the reversed current token. -/
def tokensGo : List Char → List Char → List String
  | [], cur => if cur.isEmpty then [] else [String.mk cur.reverse]
  | c :: cs, cur =>
    if c == ' ' then
      if cur.isEmpty then tokensGo cs []
      else String.mk cur.reverse :: tokensGo cs []
    else tokensGo cs (c :: cur)

/-- The whitespace-separated tokens of a line, as extracted by repeated
`istringstream >> std::string`. -/
def tokensOf (l : String) : List String := tokensGo l.data []

/-- The numeric value of a digit string. -/
def digitsVal (ds : List Char) : Nat :=
  ds.foldl (fun n c => n * 10 + (c.toNat - 48)) 0

/-- Model of `std::stoul`: parses the longest leading digit run, failing (throwing
`std::invalid_argument`, modelled `none`) when there is none. -/
def stoulM (s : String) : Option Nat :=
  let ds := s.toList.takeWhile (fun c => c.isDigit)
  if ds.isEmpty then none else some (digitsVal ds)

/-- Model of `std::stod` restricted to the integer literals exercised here: an
optional leading minus sign followed by a digit run (a fractional part is
truncated, as the values in scope are integral); fails when no digit run is
present. -/
def stodM (s : String) : Option ℤ :=
  let cs := s.toList
  let neg := cs.headD ' ' = '-'
  let ds := (if neg then cs.drop 1 else cs).takeWhile (fun c => c.isDigit)
  if ds.isEmpty then none
  else some (if neg then -(digitsVal ds : ℤ) else (digitsVal ds : ℤ))

/-- The triplet loop of `Matrix::read` (`sparse_matrix.cpp:352-362`): each
line yields `row`, `col`, `value` tokens (missing tokens are empty strings),
the numeric conversions may throw, and the entry is stored at the 1-based
coordinates shifted down by one. -/
def readTriplets (ord : StorageOrder) :
    List String → Matrix ℤ → Except ReadErr (Matrix ℤ)
  | [], m => .ok m
  | l :: ls, m =>
    let ts := tokensOf l
    match stoulM (ts.getD 0 emptyLine), stoulM (ts.getD 1 emptyLine),
        stodM (ts.getD 2 emptyLine) with
    | some r, some c, some v =>
      readTriplets ord ls
        { m with uncompressed_data := mapInsert ord (r - 1, c - 1) v m.uncompressed_data }
    | _, _, _ => .error .numConv

/-- Model of `Matrix::read` (`sparse_matrix.cpp:316-365`).  A file is `none` when it
cannot be opened — the function then prints to `cerr` and returns normally,
leaving the matrix unchanged — or `some` list of lines.  The banner line is
only checked for printing a warning (`sparse_matrix.cpp:328-330`); parsing
continues regardless, so the model reads past it without branching.  Comment
lines are skipped, the first non-comment line must yield three tokens
(otherwise `std::runtime_error`), the dimensions are converted with
`std::stoul`, the matrix is resized, and the remaining lines are read as
triplets. -/
def read (ord : StorageOrder) (file : Option (List String)) (m : Matrix ℤ) :
    Except ReadErr (Matrix ℤ) :=
  match file with
  | none => .ok m
  | some lines =>
    let rest := (lines.drop 1).dropWhile (fun l => firstCharIsPct l)
    let ts := tokensOf (rest.headD emptyLine)
    if ts.length < 3 then .error .dimLineFormat
    else
      match stoulM (ts.getD 0 emptyLine), stoulM (ts.getD 1 emptyLine),
          stoulM (ts.getD 2 emptyLine) with
      | some nr, some nc, some _ => readTriplets ord (rest.drop 1) (resize m nr nc)
      | _, _, _ => .error .numConv

/-- The assignment `m(i,j) = v`, keeping the matrix unchanged when the write throws; used
only to build concrete test matrices. -/
def writeD (ord : StorageOrder) (m : Matrix ℤ) (i j : Nat) (v : ℤ) : Matrix ℤ :=
  match tryWrite ord m i j v with
  | .ok m2 => m2
  | .error _ => m

/-- The writes of scenario S1 / `main.cpp:17-24`. -/
def exampleWrites : List ((Nat × Nat) × ℤ) :=
  [((0, 0), 1), ((0, 2), 3), ((1, 0), 4), ((1, 1), 5),
   ((2, 1), 8), ((2, 2), 6), ((3, 1), 1), ((4, 0), 2)]

/-- The 5×3 row-ordering matrix `A` of scenario S1. -/
def matA : Matrix ℤ :=
  exampleWrites.foldl (fun m e => writeD .RowOrdering m e.1.1 e.1.2 e.2) (init 5 3)

/-- The matrix `A` after `compress()`. -/
def matAc : Matrix ℤ := compress .RowOrdering matA

/-- A 2×2 expanded matrix with the single entry `(0,1) ↦ 7`. -/
def matC4a : Matrix ℤ := writeD .RowOrdering (init 2 2) 0 1 7

/-- The matrix `matC4a` after the out-of-bounds write `m(5,1) = 9`. -/
def matC4b : Matrix ℤ := writeD .RowOrdering matC4a 5 1 9

/-- A 2×2 expanded matrix with the single entry `(0,0) ↦ 3`: its column
count `C = 2` equals the row count of `matC6B` and `matC6Bfull`, so those
are compatible right operands for the matrix-matrix product. -/
def matC6A : Matrix ℤ := writeD .RowOrdering (init 2 2) 0 0 3

/-- A 2×1 expanded one-column matrix storing only `(1,0) ↦ 7`; its logical
column is `[0, 7]`. -/
def matC6B : Matrix ℤ := writeD .RowOrdering (init 2 1) 1 0 7

/-- A 2×1 expanded one-column matrix storing an entry in every row. -/
def matC6Bfull : Matrix ℤ :=
  writeD .RowOrdering (writeD .RowOrdering (init 2 1) 0 0 5) 1 0 7

/-- The Matrix Market banner line. -/
def mmBanner : String := "%%MatrixMarket matrix coordinate real general"

/-- A well-formed two-entry Matrix Market file. -/
def mmGood : List String := [mmBanner, "% a comment", "2 2 2", "1 1 5", "2 2 7"]

/-- The same file with a first line that is not a Matrix Market banner. -/
def mmNoBanner : List String := ["hello world", "2 2 2", "1 1 5", "2 2 7"]

/-- A file whose dimension line has only two tokens. -/
def mmBadDim : List String := [mmBanner, "2 2"]

/-- A file whose dimension line has a non-numeric token. -/
def mmBadDimToken : List String := [mmBanner, "a b c"]

/-- A file with a malformed triplet line. -/
def mmBadTriplet : List String := [mmBanner, "2 2 1", "x 1 5"]

/-- The strict entry order induced by `CompareHelper<Order>` on map
entries. -/
def entryLt (ord : StorageOrder) (a b : (Nat × Nat) × α) : Prop :=
  keyLt ord a.1 b.1 = true

/-- Adjacent-pairs sortedness of an association list under `keyLt`: the
`std::map` representation invariant. -/
def chainLtB (ord : StorageOrder) : List ((Nat × Nat) × α) → Bool
  | [] => true
  | [_] => true
  | a :: b :: t => keyLt ord a.1 b.1 && chainLtB ord (b :: t)

/-- Invariant I4: every stored coordinate lies inside `rows × cols`. -/
def inBoundsB (m : Matrix α) : Bool :=
  m.uncompressed_data.all
    (fun e => decide (e.1.1 < m.numrows) && decide (e.1.2 < m.numcols))

/-- The concatenation of the stripes `idx, idx+1, …, idx+rem-1`, i.e. the
specification of the entry order in which `compress` emits the map. -/
def stripesFrom (ord : StorageOrder) (l : List ((Nat × Nat) × α)) :
    Nat → Nat → List ((Nat × Nat) × α)
  | _, 0 => []
  | idx, rem + 1 => stripe ord l idx ++ stripesFrom ord l (idx + 1) rem

/-! ### Order lemmas -/

theorem keyLt_asymm {ord : StorageOrder} {a b : Nat × Nat}
    (h : keyLt ord a b = true) : keyLt ord b a = false := by
  cases ord <;> simp only [keyLt, decide_eq_true_eq, decide_eq_false_iff_not] at h ⊢ <;> omega

theorem keyLt_trans {ord : StorageOrder} {a b c : Nat × Nat}
    (h1 : keyLt ord a b = true) (h2 : keyLt ord b c = true) :
    keyLt ord a c = true := by
  cases ord <;> simp only [keyLt, decide_eq_true_eq] at h1 h2 ⊢ <;> omega

theorem keyLt_major_le {ord : StorageOrder} {a b : Nat × Nat}
    (h : keyLt ord a b = true) : major ord a ≤ major ord b := by
  cases ord <;> simp only [keyLt, decide_eq_true_eq] at h <;> simp only [major] <;> omega

theorem keyLt_minor_lt {ord : StorageOrder} {a b : Nat × Nat}
    (h : keyLt ord a b = true) (hmaj : major ord a = major ord b) :
    minor ord a < minor ord b := by
  cases ord <;> simp only [keyLt, decide_eq_true_eq] at h <;>
    simp only [major] at hmaj <;> simp only [minor] <;> omega

theorem coordOf_major_minor (ord : StorageOrder) (c : Nat × Nat) :
    coordOf ord (major ord c) (minor ord c) = c := by
  cases ord <;> simp [coordOf, major, minor]

variable {α : Type}

theorem pairwise_of_chainLtB {ord : StorageOrder} :
    ∀ {l : List ((Nat × Nat) × α)}, chainLtB ord l = true →
      List.Pairwise (entryLt ord) l
  | [], _ => List.Pairwise.nil
  | [a], _ => by simp [entryLt]
  | a :: b :: t, h => by
    rw [chainLtB, Bool.and_eq_true] at h
    have hp := pairwise_of_chainLtB (l := b :: t) h.2
    refine List.Pairwise.cons (fun x hx => ?_) hp
    rcases List.mem_cons.mp hx with rfl | hx
    · exact h.1
    · exact keyLt_trans h.1 ((List.pairwise_cons.mp hp).1 x hx)

/-! ### Generic fold helpers -/

theorem foldl_congr_mem {β γ : Type} :
    ∀ (l : List γ) (f g : β → γ → β),
      (∀ b e, e ∈ l → f b e = g b e) → ∀ b, l.foldl f b = l.foldl g b
  | [], _, _, _, _ => rfl
  | e :: t, f, g, h, b => by
    rw [List.foldl_cons, List.foldl_cons, h b e (List.mem_cons_self e t)]
    exact foldl_congr_mem t f g (fun b x hx => h b x (List.mem_cons_of_mem e hx)) _

theorem drop_eq_getD_cons {γ : Type} :
    ∀ (u : List γ) (s : Nat) (d : γ), s < u.length →
      u.drop s = u.getD s d :: u.drop (s + 1)
  | a :: t, 0, d, _ => rfl
  | a :: t, s + 1, d, h => by
    have := drop_eq_getD_cons t s d (by simpa using h)
    simpa [List.drop_succ_cons, List.getD] using this

/-- A fold over the index range `[s, s+n)` reading two lists with unchecked
indexing equals the fold over the zipped slices, provided the reads stay in
range. -/
theorem foldl_range'_getD {γ δ : Type} (g : δ → Nat → γ → δ)
    (u : List Nat) (w : List γ) (d : γ) :
    ∀ (n s : Nat) (b : δ), s + n ≤ u.length → s + n ≤ w.length →
      (List.range' s n).foldl (fun b k => g b (u.getD k 0) (w.getD k d)) b
        = (List.zip ((u.drop s).take n) ((w.drop s).take n)).foldl
            (fun b p => g b p.1 p.2) b
  | 0, s, b, _, _ => by simp
  | n + 1, s, b, hu, hw => by
    have hsu : s < u.length := by omega
    have hsw : s < w.length := by omega
    rw [List.range'_succ, List.foldl_cons,
      drop_eq_getD_cons u s 0 hsu, drop_eq_getD_cons w s d hsw]
    rw [List.take_succ_cons, List.take_succ_cons, List.zip_cons_cons,
      List.foldl_cons]
    exact foldl_range'_getD g u w d n (s + 1) _ (by omega) (by omega)

/-! ### The compress loop versus `stripesFrom` -/

theorem compressGo_outer (ord : StorageOrder) (l : List ((Nat × Nat) × α)) :
    ∀ (rem count idx : Nat),
      (compressGo ord l count idx rem).2.1
        = (stripesFrom ord l idx rem).map (fun e => minor ord e.1)
  | 0, _, _ => rfl
  | rem + 1, count, idx => by
    simp only [compressGo, stripesFrom, List.map_append]
    rw [compressGo_outer ord l rem]

theorem compressGo_data (ord : StorageOrder) (l : List ((Nat × Nat) × α)) :
    ∀ (rem count idx : Nat),
      (compressGo ord l count idx rem).2.2
        = (stripesFrom ord l idx rem).map (fun e => e.2)
  | 0, _, _ => rfl
  | rem + 1, count, idx => by
    simp only [compressGo, stripesFrom, List.map_append]
    rw [compressGo_data ord l rem]

theorem compressGo_inner_length (ord : StorageOrder) (l : List ((Nat × Nat) × α)) :
    ∀ (rem count idx : Nat), (compressGo ord l count idx rem).1.length = rem + 1
  | 0, _, _ => rfl
  | rem + 1, count, idx => by
    simp only [compressGo, List.length_cons]
    rw [compressGo_inner_length ord l rem]

theorem compressGo_inner_getD (ord : StorageOrder) (l : List ((Nat × Nat) × α)) :
    ∀ (i rem count idx : Nat), i ≤ rem →
      (compressGo ord l count idx rem).1.getD i 0
        = count + (stripesFrom ord l idx i).length
  | 0, 0, count, idx, _ => by simp [compressGo, stripesFrom]
  | 0, rem + 1, count, idx, _ => by simp [compressGo, stripesFrom]
  | i + 1, 0, _, _, h => by omega
  | i + 1, rem + 1, count, idx, h => by
    simp only [compressGo, List.getD_cons_succ]
    rw [compressGo_inner_getD ord l i rem _ _ (by omega)]
    simp only [stripesFrom, List.length_append]
    omega

theorem stripesFrom_split (ord : StorageOrder) (l : List ((Nat × Nat) × α)) :
    ∀ (a idx b : Nat),
      stripesFrom ord l idx (a + b)
        = stripesFrom ord l idx a ++ stripesFrom ord l (idx + a) b
  | 0, idx, b => by simp [stripesFrom]
  | a + 1, idx, b => by
    have h1 : a + 1 + b = (a + b) + 1 := by omega
    rw [h1]
    simp only [stripesFrom]
    rw [stripesFrom_split ord l a (idx + 1) b, List.append_assoc]
    have h2 : idx + 1 + a = idx + (a + 1) := by omega
    rw [h2]

theorem stripesFrom_one (ord : StorageOrder) (l : List ((Nat × Nat) × α))
    (idx : Nat) : stripesFrom ord l idx 1 = stripe ord l idx := by
  simp [stripesFrom]

/-- The slice of the concatenated stripes that starts at the total length of
the first `idx` stripes and has the length of stripe `idx` is stripe `idx`
itself. -/
theorem stripesFrom_slice (ord : StorageOrder) (l : List ((Nat × Nat) × α))
    {sz idx : Nat} (h : idx < sz) :
    (((stripesFrom ord l 0 sz).drop (stripesFrom ord l 0 idx).length).take
        (stripe ord l idx).length)
      = stripe ord l idx := by
  have hsz : sz = idx + (1 + (sz - idx - 1)) := by omega
  rw [hsz, stripesFrom_split ord l idx 0 (1 + (sz - idx - 1)),
    stripesFrom_split ord l 1 (0 + idx) (sz - idx - 1)]
  simp only [Nat.zero_add, stripesFrom_one]
  rw [List.drop_left, List.take_left]

theorem stripesFrom_length_mono (ord : StorageOrder)
    (l : List ((Nat × Nat) × α)) {a b : Nat} (h : a ≤ b) :
    (stripesFrom ord l 0 a).length ≤ (stripesFrom ord l 0 b).length := by
  have hb : b = a + (b - a) := by omega
  rw [hb, stripesFrom_split ord l a 0 (b - a), List.length_append]
  omega

/-- One inner loop of a packed kernel on the output of `compressGo`: folding
`g` over the unchecked reads `outer[k]`, `data[k]` for
`k ∈ [inner[idx], inner[idx+1])` is folding `g` over stripe `idx` of the
map. -/
theorem packed_stripe_fold {δ : Type} (ord : StorageOrder)
    (l : List ((Nat × Nat) × α)) {sz idx : Nat} (h : idx < sz)
    (g : δ → Nat → α → δ) (d : α) (b : δ) :
    (List.range' ((compressGo ord l 0 0 sz).1.getD idx 0)
        ((compressGo ord l 0 0 sz).1.getD (idx + 1) 0 -
          (compressGo ord l 0 0 sz).1.getD idx 0)).foldl
      (fun b k =>
        g b ((compressGo ord l 0 0 sz).2.1.getD k 0)
          ((compressGo ord l 0 0 sz).2.2.getD k d)) b
      = (stripe ord l idx).foldl (fun b e => g b (minor ord e.1) e.2) b := by
  have hs : (compressGo ord l 0 0 sz).1.getD idx 0
      = (stripesFrom ord l 0 idx).length := by
    rw [compressGo_inner_getD ord l idx sz 0 0 (le_of_lt h), Nat.zero_add]
  have he : (compressGo ord l 0 0 sz).1.getD (idx + 1) 0
      = (stripesFrom ord l 0 (idx + 1)).length := by
    rw [compressGo_inner_getD ord l (idx + 1) sz 0 0 h, Nat.zero_add]
  have hsplit : stripesFrom ord l 0 (idx + 1)
      = stripesFrom ord l 0 idx ++ stripe ord l idx := by
    rw [stripesFrom_split ord l idx 0 1, Nat.zero_add, stripesFrom_one]
  have hes : (stripesFrom ord l 0 (idx + 1)).length -
      (stripesFrom ord l 0 idx).length = (stripe ord l idx).length := by
    rw [hsplit, List.length_append]
    omega
  have hle : (stripesFrom ord l 0 (idx + 1)).length
      ≤ (stripesFrom ord l 0 sz).length := stripesFrom_length_mono ord l h
  simp only [compressGo_outer ord l sz 0 0, compressGo_data ord l sz 0 0, hs, he, hes]
  rw [foldl_range'_getD g _ _ d
      (stripe ord l idx).length (stripesFrom ord l 0 idx).length b
      (by rw [List.length_map]; rw [hsplit, List.length_append] at hle; omega)
      (by rw [List.length_map]; rw [hsplit, List.length_append] at hle; omega)]
  rw [← List.map_drop, ← List.map_drop, ← List.map_take, ← List.map_take,
    stripesFrom_slice ord l h, List.zip_map', List.foldl_map]

/-! ### Sorted maps decompose into their stripes -/

theorem stripesFrom_append_congr (ord : StorageOrder)
    (a b : List ((Nat × Nat) × α)) :
    ∀ (rem idx : Nat), (∀ e ∈ a, major ord e.1 < idx) →
      stripesFrom ord (a ++ b) idx rem = stripesFrom ord b idx rem
  | 0, _, _ => rfl
  | rem + 1, idx, hlt => by
    simp only [stripesFrom]
    rw [stripesFrom_append_congr ord a b rem (idx + 1) (fun e he => by
      have := hlt e he; omega)]
    have ha : stripe ord (a ++ b) idx = stripe ord b idx := by
      rw [stripe, List.filter_append]
      have : a.filter (fun e => major ord e.1 == idx) = [] := by
        rw [List.filter_eq_nil_iff]
        intro e he
        have := hlt e he
        simp only [beq_iff_eq]
        omega
      rw [this, List.nil_append, stripe]
    rw [ha]

theorem dropWhile_head_false {γ : Type} (p : γ → Bool) :
    ∀ (l : List γ) (x : γ) (xs : List γ), l.dropWhile p = x :: xs → p x = false
  | [], x, xs, h => by simp [List.dropWhile] at h
  | a :: t, x, xs, h => by
    rw [List.dropWhile_cons] at h
    by_cases hp : p a = true
    · rw [if_pos hp] at h
      exact dropWhile_head_false p t x xs h
    · rw [if_neg hp] at h
      cases h
      simpa using hp

/-- A sorted map whose majors all lie in `[idx, idx + rem)` is the
concatenation of its stripes `idx … idx + rem - 1`. -/
theorem stripesFrom_eq_self (ord : StorageOrder) :
    ∀ (rem idx : Nat) (l : List ((Nat × Nat) × α)),
      List.Pairwise (entryLt ord) l →
      (∀ e ∈ l, idx ≤ major ord e.1 ∧ major ord e.1 < idx + rem) →
      stripesFrom ord l idx rem = l
  | 0, idx, l, _, hb => by
    cases l with
    | nil => rfl
    | cons e t =>
      have := hb e (List.mem_cons_self e t)
      omega
  | rem + 1, idx, l, hp, hb => by
    have hab := List.takeWhile_append_dropWhile
      (p := fun e => major ord e.1 == idx) (l := l)
    have hmemA : ∀ e ∈ l.takeWhile (fun e => major ord e.1 == idx),
        major ord e.1 = idx := by
      intro e he
      simpa using List.mem_takeWhile_imp he
    have hmemB : ∀ e ∈ l.dropWhile (fun e => major ord e.1 == idx),
        idx + 1 ≤ major ord e.1 := by
      cases hd : l.dropWhile (fun e => major ord e.1 == idx) with
      | nil => simp
      | cons x xs =>
        have hx : major ord x.1 ≠ idx := by
          have := dropWhile_head_false _ l x xs hd
          simpa using this
        have hxl : x ∈ l := by
          rw [← hab, hd]
          exact List.mem_append_right _ (List.mem_cons_self x xs)
        have hxge : idx ≤ major ord x.1 := (hb x hxl).1
        have hpx : List.Pairwise (entryLt ord) (x :: xs) := by
          have hpdw : List.Pairwise (entryLt ord)
              (l.dropWhile (fun e => major ord e.1 == idx)) :=
            hp.sublist (List.dropWhile_sublist _)
          rwa [hd] at hpdw
        intro e he
        rcases List.mem_cons.mp he with rfl | he2
        · omega
        · have hlt := (List.pairwise_cons.mp hpx).1 e he2
          have := keyLt_major_le hlt
          omega
    have hstripe : stripe ord l idx
        = l.takeWhile (fun e => major ord e.1 == idx) := by
      conv_lhs => rw [stripe, ← hab]
      rw [List.filter_append]
      have h1 : (l.takeWhile (fun e => major ord e.1 == idx)).filter
          (fun e => major ord e.1 == idx)
          = l.takeWhile (fun e => major ord e.1 == idx) :=
        List.filter_eq_self.mpr (fun e he => by
          simpa using List.mem_takeWhile_imp he)
      have h2 : (l.dropWhile (fun e => major ord e.1 == idx)).filter
          (fun e => major ord e.1 == idx) = [] := by
        rw [List.filter_eq_nil_iff]
        intro e he
        have := hmemB e he
        simp only [beq_iff_eq]
        omega
      rw [h1, h2, List.append_nil]
    have hcongr : stripesFrom ord l (idx + 1) rem
        = stripesFrom ord (l.dropWhile (fun e => major ord e.1 == idx))
            (idx + 1) rem := by
      conv_lhs => rw [← hab]
      exact stripesFrom_append_congr ord _ _ rem (idx + 1)
        (fun e he => by have := hmemA e he; omega)
    have hrec : stripesFrom ord
        (l.dropWhile (fun e => major ord e.1 == idx)) (idx + 1) rem
        = l.dropWhile (fun e => major ord e.1 == idx) := by
      refine stripesFrom_eq_self ord rem (idx + 1) _
        (hp.sublist (List.dropWhile_sublist _)) (fun e he => ?_)
      refine ⟨hmemB e he, ?_⟩
      have hel : e ∈ l := by
        rw [← hab]
        exact List.mem_append_right _ he
      have := (hb e hel).2
      omega
    calc stripesFrom ord l idx (rem + 1)
        = stripe ord l idx ++ stripesFrom ord l (idx + 1) rem := rfl
      _ = l.takeWhile (fun e => major ord e.1 == idx)
            ++ l.dropWhile (fun e => major ord e.1 == idx) := by
          rw [hstripe, hcongr, hrec]
      _ = l := hab

/-! ### Inserting sorted entries appends -/

theorem mapInsert_append (ord : StorageOrder) (k : Nat × Nat) (v : α) :
    ∀ (acc : List ((Nat × Nat) × α)),
      (∀ e ∈ acc, keyLt ord e.1 k = true) →
      mapInsert ord k v acc = acc ++ [(k, v)]
  | [], _ => rfl
  | e :: t, h => by
    have he := h e (List.mem_cons_self e t)
    rw [mapInsert, if_neg (by rw [keyLt_asymm he]; simp), if_pos he,
      mapInsert_append ord k v t (fun x hx => h x (List.mem_cons_of_mem e hx)),
      List.cons_append]

theorem foldl_mapInsert_append (ord : StorageOrder) :
    ∀ (ps acc : List ((Nat × Nat) × α)),
      List.Pairwise (entryLt ord) (acc ++ ps) →
      ps.foldl (fun acc p => mapInsert ord p.1 p.2 acc) acc = acc ++ ps
  | [], acc, _ => by simp
  | p :: ps, acc, h => by
    have hin : mapInsert ord p.1 p.2 acc = acc ++ [p] := by
      rw [mapInsert_append ord p.1 p.2 acc (fun e he =>
        (List.pairwise_append.mp h).2.2 e he p (List.mem_cons_self p ps))]
    rw [List.foldl_cons, hin, foldl_mapInsert_append ord ps (acc ++ [p])
      (by rwa [List.append_assoc, List.singleton_append])]
    rw [List.append_assoc, List.singleton_append]

/-! ### The fields of a freshly compressed matrix -/

theorem compress_eq (ord : StorageOrder) (m : Matrix α) (hc : m.compressed = false) :
    compress ord m =
      { m with
        compressed := true
        uncompressed_data := []
        compressed_inner := (compressGo ord m.uncompressed_data 0 0 (majorDim ord m)).1
        compressed_outer := (compressGo ord m.uncompressed_data 0 0 (majorDim ord m)).2.1
        compressed_data := (compressGo ord m.uncompressed_data 0 0 (majorDim ord m)).2.2 } := by
  simp [compress, hc]

theorem compressGo_slice (ord : StorageOrder) (l : List ((Nat × Nat) × α))
    {sz idx : Nat} (h : idx < sz) :
    (((compressGo ord l 0 0 sz).2.1.drop ((compressGo ord l 0 0 sz).1.getD idx 0)).take
        ((compressGo ord l 0 0 sz).1.getD (idx + 1) 0 -
          (compressGo ord l 0 0 sz).1.getD idx 0))
      = (stripe ord l idx).map (fun e => minor ord e.1) := by
  have hs : (compressGo ord l 0 0 sz).1.getD idx 0
      = (stripesFrom ord l 0 idx).length := by
    rw [compressGo_inner_getD ord l idx sz 0 0 (le_of_lt h), Nat.zero_add]
  have he : (compressGo ord l 0 0 sz).1.getD (idx + 1) 0
      = (stripesFrom ord l 0 (idx + 1)).length := by
    rw [compressGo_inner_getD ord l (idx + 1) sz 0 0 h, Nat.zero_add]
  have hsplit : stripesFrom ord l 0 (idx + 1)
      = stripesFrom ord l 0 idx ++ stripe ord l idx := by
    rw [stripesFrom_split ord l idx 0 1, Nat.zero_add, stripesFrom_one]
  have hes : (stripesFrom ord l 0 (idx + 1)).length -
      (stripesFrom ord l 0 idx).length = (stripe ord l idx).length := by
    rw [hsplit, List.length_append]
    omega
  simp only [compressGo_outer ord l sz 0 0, hs, he, hes]
  rw [← List.map_drop, ← List.map_take, stripesFrom_slice ord l h]

/-! ### The bounds invariant in major/minor form -/

theorem major_lt_of_inBounds (ord : StorageOrder) {m : Matrix α}
    (hb : inBoundsB m = true) :
    ∀ e ∈ m.uncompressed_data, major ord e.1 < majorDim ord m := by
  intro e he
  have h2 := List.all_eq_true.mp hb e he
  rw [Bool.and_eq_true, decide_eq_true_eq, decide_eq_true_eq] at h2
  cases ord
  · simpa [major, majorDim] using h2.1
  · simpa [major, majorDim] using h2.2

theorem minor_lt_of_inBounds (ord : StorageOrder) {m : Matrix α}
    (hb : inBoundsB m = true) :
    ∀ e ∈ m.uncompressed_data, minor ord e.1 < minorDim ord m := by
  intro e he
  have h2 := List.all_eq_true.mp hb e he
  rw [Bool.and_eq_true, decide_eq_true_eq, decide_eq_true_eq] at h2
  cases ord
  · simpa [minor, minorDim] using h2.2
  · simpa [minor, minorDim] using h2.1

/-! ### The stripe-walking loops of `uncompress` and of the packed kernels -/

theorem uncompress_loop [Zero α] (ord : StorageOrder)
    (l : List ((Nat × Nat) × α)) (sz : Nat) :
    ∀ (rem idx : Nat) (acc : List ((Nat × Nat) × α)), idx + rem ≤ sz →
      (List.range' idx rem).foldl
        (fun acc i =>
          (List.range' ((compressGo ord l 0 0 sz).1.getD i 0)
              ((compressGo ord l 0 0 sz).1.getD (i + 1) 0 -
                (compressGo ord l 0 0 sz).1.getD i 0)).foldl
            (fun acc k =>
              mapInsert ord (coordOf ord i ((compressGo ord l 0 0 sz).2.1.getD k 0))
                ((compressGo ord l 0 0 sz).2.2.getD k 0) acc)
            acc)
        acc
      = (stripesFrom ord l idx rem).foldl
          (fun acc e => mapInsert ord e.1 e.2 acc) acc
  | 0, idx, acc, _ => by simp [stripesFrom]
  | rem + 1, idx, acc, hle => by
    have hidx : idx < sz := by omega
    simp only [List.range'_succ, List.foldl_cons]
    have h1 : (List.range' ((compressGo ord l 0 0 sz).1.getD idx 0)
          ((compressGo ord l 0 0 sz).1.getD (idx + 1) 0 -
            (compressGo ord l 0 0 sz).1.getD idx 0) 1).foldl
        (fun acc k =>
          mapInsert ord (coordOf ord idx ((compressGo ord l 0 0 sz).2.1.getD k 0))
            ((compressGo ord l 0 0 sz).2.2.getD k 0) acc)
        acc
        = (stripe ord l idx).foldl (fun acc e => mapInsert ord e.1 e.2 acc) acc := by
      have h2 : (stripe ord l idx).foldl
          (fun acc e => mapInsert ord (coordOf ord idx (minor ord e.1)) e.2 acc) acc
          = (stripe ord l idx).foldl (fun acc e => mapInsert ord e.1 e.2 acc) acc := by
        refine foldl_congr_mem _ _ _ (fun b e he => ?_) acc
        have hm : major ord e.1 = idx := by
          simpa using (List.mem_filter.mp he).2
        rw [← hm, coordOf_major_minor]
      rw [← h2]
      exact packed_stripe_fold ord l hidx
        (fun b mn val => mapInsert ord (coordOf ord idx mn) val b) 0 acc
    rw [h1]
    show (List.range' (idx + 1) rem).foldl _ _ = _
    rw [uncompress_loop ord l sz rem (idx + 1) _ (by omega)]
    simp only [stripesFrom, List.foldl_append]

theorem majorDim_compress_aux (ord : StorageOrder) (m : Matrix α)
    (i o : List Nat) (d : List α) :
    majorDim ord
      { m with
        compressed := true
        uncompressed_data := []
        compressed_inner := i
        compressed_outer := o
        compressed_data := d } = majorDim ord m := by
  cases ord <;> rfl

/-- C1.  For every expanded matrix whose stored coordinates lie within the
`rows × cols` bounds, `uncompress (compress m)` restores the stored mapping
exactly and preserves the dimensions and the expanded state. -/
theorem c1_roundtrip [Zero α] (ord : StorageOrder) (m : Matrix α)
    (hc : m.compressed = false)
    (hs : chainLtB ord m.uncompressed_data = true)
    (hb : inBoundsB m = true) :
    (uncompress ord (compress ord m)).uncompressed_data = m.uncompressed_data ∧
    (uncompress ord (compress ord m)).numrows = m.numrows ∧
    (uncompress ord (compress ord m)).numcols = m.numcols ∧
    (uncompress ord (compress ord m)).compressed = false := by
  have hp := pairwise_of_chainLtB hs
  rw [compress_eq ord m hc]
  simp only [uncompress, majorDim_compress_aux]
  refine ⟨?_, by simp, by simp, by simp⟩
  simp only [Bool.true_eq_false, if_false]
  rw [List.range_eq_range']
  rw [uncompress_loop ord m.uncompressed_data (majorDim ord m)
    (majorDim ord m) 0 [] (by omega)]
  rw [stripesFrom_eq_self ord (majorDim ord m) 0 m.uncompressed_data hp
    (fun e he => ⟨Nat.zero_le _, by
      have := major_lt_of_inBounds ord hb e he
      omega⟩)]
  rw [foldl_mapInsert_append ord m.uncompressed_data []
    (by rwa [List.nil_append])]
  rw [List.nil_append]

theorem c1_roundtrip_witness :
    matA.compressed = false ∧
    chainLtB .RowOrdering matA.uncompressed_data = true ∧
    inBoundsB matA = true ∧
    ((uncompress .RowOrdering (compress .RowOrdering matA)).uncompressed_data
        = matA.uncompressed_data ∧
      (uncompress .RowOrdering (compress .RowOrdering matA)).numrows = matA.numrows ∧
      (uncompress .RowOrdering (compress .RowOrdering matA)).numcols = matA.numcols ∧
      (uncompress .RowOrdering (compress .RowOrdering matA)).compressed = false) :=
  ⟨by decide, by decide, by decide,
    c1_roundtrip .RowOrdering matA (by decide) (by decide) (by decide)⟩

theorem matVec_row_loop [Zero α] [Add α] [Mul α] (ord : StorageOrder)
    (l : List ((Nat × Nat) × α)) (sz : Nat) (v : List α) :
    ∀ (rem idx : Nat) (res : List α), idx + rem ≤ sz →
      (List.range' idx rem).foldl
        (fun res i =>
          (List.range' ((compressGo ord l 0 0 sz).1.getD i 0)
              ((compressGo ord l 0 0 sz).1.getD (i + 1) 0 -
                (compressGo ord l 0 0 sz).1.getD i 0)).foldl
            (fun res k =>
              res.set i (res.getD i 0 +
                (compressGo ord l 0 0 sz).2.2.getD k 0 *
                  v.getD ((compressGo ord l 0 0 sz).2.1.getD k 0) 0))
            res)
        res
      = (stripesFrom ord l idx rem).foldl
          (fun res e =>
            res.set (major ord e.1)
              (res.getD (major ord e.1) 0 + e.2 * v.getD (minor ord e.1) 0))
          res
  | 0, idx, res, _ => by simp [stripesFrom]
  | rem + 1, idx, res, hle => by
    have hidx : idx < sz := by omega
    simp only [List.range'_succ, List.foldl_cons]
    have h1 : (List.range' ((compressGo ord l 0 0 sz).1.getD idx 0)
          ((compressGo ord l 0 0 sz).1.getD (idx + 1) 0 -
            (compressGo ord l 0 0 sz).1.getD idx 0) 1).foldl
        (fun res k =>
          res.set idx (res.getD idx 0 +
            (compressGo ord l 0 0 sz).2.2.getD k 0 *
              v.getD ((compressGo ord l 0 0 sz).2.1.getD k 0) 0))
        res
        = (stripe ord l idx).foldl
            (fun res e =>
              res.set (major ord e.1)
                (res.getD (major ord e.1) 0 + e.2 * v.getD (minor ord e.1) 0))
            res := by
      have h2 : (stripe ord l idx).foldl
          (fun res e =>
            res.set idx (res.getD idx 0 + e.2 * v.getD (minor ord e.1) 0)) res
          = (stripe ord l idx).foldl
              (fun res e =>
                res.set (major ord e.1)
                  (res.getD (major ord e.1) 0 + e.2 * v.getD (minor ord e.1) 0))
              res := by
        refine foldl_congr_mem _ _ _ (fun b e he => ?_) res
        have hm : major ord e.1 = idx := by
          simpa using (List.mem_filter.mp he).2
        rw [hm]
      rw [← h2]
      exact packed_stripe_fold ord l hidx
        (fun b mn val => b.set idx (b.getD idx 0 + val * v.getD mn 0)) 0 res
    rw [h1]
    show (List.range' (idx + 1) rem).foldl _ _ = _
    rw [matVec_row_loop ord l sz v rem (idx + 1) _ (by omega)]
    simp only [stripesFrom, List.foldl_append]

theorem matVec_col_loop [Zero α] [Add α] [Mul α] (ord : StorageOrder)
    (l : List ((Nat × Nat) × α)) (sz : Nat) (v : List α) :
    ∀ (rem idx : Nat) (res : List α), idx + rem ≤ sz →
      (List.range' idx rem).foldl
        (fun res j =>
          (List.range' ((compressGo ord l 0 0 sz).1.getD j 0)
              ((compressGo ord l 0 0 sz).1.getD (j + 1) 0 -
                (compressGo ord l 0 0 sz).1.getD j 0)).foldl
            (fun res k =>
              res.set ((compressGo ord l 0 0 sz).2.1.getD k 0)
                (res.getD ((compressGo ord l 0 0 sz).2.1.getD k 0) 0 +
                  (compressGo ord l 0 0 sz).2.2.getD k 0 * v.getD j 0))
            res)
        res
      = (stripesFrom ord l idx rem).foldl
          (fun res e =>
            res.set (minor ord e.1)
              (res.getD (minor ord e.1) 0 + e.2 * v.getD (major ord e.1) 0))
          res
  | 0, idx, res, _ => by simp [stripesFrom]
  | rem + 1, idx, res, hle => by
    have hidx : idx < sz := by omega
    simp only [List.range'_succ, List.foldl_cons]
    have h1 : (List.range' ((compressGo ord l 0 0 sz).1.getD idx 0)
          ((compressGo ord l 0 0 sz).1.getD (idx + 1) 0 -
            (compressGo ord l 0 0 sz).1.getD idx 0) 1).foldl
        (fun res k =>
          res.set ((compressGo ord l 0 0 sz).2.1.getD k 0)
            (res.getD ((compressGo ord l 0 0 sz).2.1.getD k 0) 0 +
              (compressGo ord l 0 0 sz).2.2.getD k 0 * v.getD idx 0))
        res
        = (stripe ord l idx).foldl
            (fun res e =>
              res.set (minor ord e.1)
                (res.getD (minor ord e.1) 0 + e.2 * v.getD (major ord e.1) 0))
            res := by
      have h2 : (stripe ord l idx).foldl
          (fun res e =>
            res.set (minor ord e.1)
              (res.getD (minor ord e.1) 0 + e.2 * v.getD idx 0)) res
          = (stripe ord l idx).foldl
              (fun res e =>
                res.set (minor ord e.1)
                  (res.getD (minor ord e.1) 0 + e.2 * v.getD (major ord e.1) 0))
              res := by
        refine foldl_congr_mem _ _ _ (fun b e he => ?_) res
        have hm : major ord e.1 = idx := by
          simpa using (List.mem_filter.mp he).2
        rw [hm]
      rw [← h2]
      exact packed_stripe_fold ord l hidx
        (fun b mn val => b.set mn (b.getD mn 0 + val * v.getD idx 0)) 0 res
    rw [h1]
    show (List.range' (idx + 1) rem).foldl _ _ = _
    rw [matVec_col_loop ord l sz v rem (idx + 1) _ (by omega)]
    simp only [stripesFrom, List.foldl_append]

/-- C2.  The matrix-vector product computed in expanded form equals the one
computed after `compress`, for both storage orders, whenever the stored
coordinates are in bounds and the vector has length `numcols`. -/
theorem c2_product_invariance [Zero α] [Add α] [Mul α] (ord : StorageOrder)
    (m : Matrix α) (v : List α)
    (hc : m.compressed = false)
    (hs : chainLtB ord m.uncompressed_data = true)
    (hb : inBoundsB m = true)
    (hv : v.length = m.numcols) :
    matVec ord m v = matVec ord (compress ord m) v := by
  have hp := pairwise_of_chainLtB hs
  have hfull := stripesFrom_eq_self ord (majorDim ord m) 0 m.uncompressed_data hp
    (fun e he => ⟨Nat.zero_le _, by
      have := major_lt_of_inBounds ord hb e he
      omega⟩)
  rw [compress_eq ord m hc]
  cases ord with
  | RowOrdering =>
    simp only [matVec, hc, eq_self_iff_true, if_true, Bool.true_eq_false, if_false]
    rw [List.range_eq_range']
    rw [matVec_row_loop .RowOrdering m.uncompressed_data
      (majorDim .RowOrdering m) v m.numrows 0 _
      (by rw [show majorDim .RowOrdering m = m.numrows from rfl]; omega)]
    rw [show majorDim .RowOrdering m = m.numrows from rfl] at hfull
    rw [hfull]
    rfl
  | ColumnOrdering =>
    simp only [matVec, hc, eq_self_iff_true, if_true, Bool.true_eq_false, if_false]
    rw [List.range_eq_range']
    rw [matVec_col_loop .ColumnOrdering m.uncompressed_data
      (majorDim .ColumnOrdering m) v m.numcols 0 _
      (by rw [show majorDim .ColumnOrdering m = m.numcols from rfl]; omega)]
    rw [show majorDim .ColumnOrdering m = m.numcols from rfl] at hfull
    rw [hfull]
    rfl

theorem c2_product_invariance_witness :
    matA.compressed = false ∧
    chainLtB .RowOrdering matA.uncompressed_data = true ∧
    inBoundsB matA = true ∧
    ([(1 : ℤ), 2, 3].length = matA.numcols) ∧
    matVec .RowOrdering matA [1, 2, 3]
      = matVec .RowOrdering (compress .RowOrdering matA) [1, 2, 3] :=
  ⟨by decide, by decide, by decide, by decide,
    c2_product_invariance .RowOrdering matA [1, 2, 3]
      (by decide) (by decide) (by decide) (by decide)⟩

theorem compress_inner_eq (ord : StorageOrder) (m : Matrix α)
    (hc : m.compressed = false) :
    (compress ord m).compressed_inner
      = (compressGo ord m.uncompressed_data 0 0 (majorDim ord m)).1 := by
  simp [compress, hc]

theorem compress_outer_eq (ord : StorageOrder) (m : Matrix α)
    (hc : m.compressed = false) :
    (compress ord m).compressed_outer
      = (compressGo ord m.uncompressed_data 0 0 (majorDim ord m)).2.1 := by
  simp [compress, hc]

theorem compress_data_eq (ord : StorageOrder) (m : Matrix α)
    (hc : m.compressed = false) :
    (compress ord m).compressed_data
      = (compressGo ord m.uncompressed_data 0 0 (majorDim ord m)).2.2 := by
  simp [compress, hc]

theorem sliceOuter_compress (ord : StorageOrder) (m : Matrix α)
    (hc : m.compressed = false) {idx : Nat} (h : idx < majorDim ord m) :
    sliceOuter (compress ord m) idx
      = (stripe ord m.uncompressed_data idx).map (fun e => minor ord e.1) := by
  simp only [sliceOuter, compress_inner_eq ord m hc, compress_outer_eq ord m hc]
  exact compressGo_slice ord m.uncompressed_data h

/-- C3.  After `compress` on an expanded in-bounds matrix, invariant I3
holds: `inner` has length `major+1`, starts at `0`, is non-decreasing, ends
at the common length of `outer` and `values`, and each outer stripe is
strictly increasing and bounded by the minor dimension. -/
theorem c3_packed_shape (ord : StorageOrder) (m : Matrix α)
    (hc : m.compressed = false)
    (hs : chainLtB ord m.uncompressed_data = true)
    (hb : inBoundsB m = true) :
    (compress ord m).compressed_inner.length = majorDim ord m + 1 ∧
    (compress ord m).compressed_inner.getD 0 0 = 0 ∧
    List.Pairwise (· ≤ ·) (compress ord m).compressed_inner ∧
    (compress ord m).compressed_inner.getD (majorDim ord m) 0
      = (compress ord m).compressed_outer.length ∧
    (compress ord m).compressed_outer.length
      = (compress ord m).compressed_data.length ∧
    ∀ idx, idx < majorDim ord m →
      List.Pairwise (· < ·) (sliceOuter (compress ord m) idx) ∧
      ∀ x ∈ sliceOuter (compress ord m) idx, x < minorDim ord m := by
  have hp := pairwise_of_chainLtB hs
  rw [compress_inner_eq ord m hc, compress_outer_eq ord m hc,
    compress_data_eq ord m hc]
  refine ⟨compressGo_inner_length ord m.uncompressed_data _ 0 0, ?_, ?_, ?_, ?_, ?_⟩
  · rw [compressGo_inner_getD ord m.uncompressed_data 0 (majorDim ord m) 0 0
      (Nat.zero_le _)]
    simp [stripesFrom]
  · rw [List.pairwise_iff_getElem]
    intro i j hi hj hij
    rw [compressGo_inner_length ord m.uncompressed_data _ 0 0] at hi hj
    rw [← List.getD_eq_getElem _ 0
        (by rw [compressGo_inner_length ord m.uncompressed_data _ 0 0]; omega),
      ← List.getD_eq_getElem _ 0
        (by rw [compressGo_inner_length ord m.uncompressed_data _ 0 0]; omega)]
    rw [compressGo_inner_getD ord m.uncompressed_data i (majorDim ord m) 0 0
        (by omega),
      compressGo_inner_getD ord m.uncompressed_data j (majorDim ord m) 0 0
        (by omega)]
    have := stripesFrom_length_mono ord m.uncompressed_data
      (a := i) (b := j) (by omega)
    omega
  · rw [compressGo_inner_getD ord m.uncompressed_data (majorDim ord m)
      (majorDim ord m) 0 0 (le_refl _)]
    rw [compressGo_outer ord m.uncompressed_data (majorDim ord m) 0 0,
      List.length_map]
    omega
  · rw [compressGo_outer ord m.uncompressed_data (majorDim ord m) 0 0,
      compressGo_data ord m.uncompressed_data (majorDim ord m) 0 0,
      List.length_map, List.length_map]
  · intro idx hidx
    have hsl : sliceOuter (compress ord m) idx
        = (stripe ord m.uncompressed_data idx).map (fun e => minor ord e.1) :=
      sliceOuter_compress ord m hc hidx
    rw [hsl]
    constructor
    · rw [List.pairwise_map]
      have hstr : List.Pairwise (entryLt ord) (stripe ord m.uncompressed_data idx) :=
        hp.sublist (List.filter_sublist _)
      refine hstr.imp_of_mem (fun {a b} ha hb2 hab => ?_)
      have hma : major ord a.1 = idx := by
        simpa using (List.mem_filter.mp ha).2
      have hmb : major ord b.1 = idx := by
        simpa using (List.mem_filter.mp hb2).2
      exact keyLt_minor_lt hab (by omega)
    · intro x hx
      rcases List.mem_map.mp hx with ⟨e, he, rfl⟩
      exact minor_lt_of_inBounds ord hb e (List.mem_filter.mp he).1

theorem c3_packed_shape_witness :
    matA.compressed = false ∧
    chainLtB .RowOrdering matA.uncompressed_data = true ∧
    inBoundsB matA = true ∧
    ((compress .RowOrdering matA).compressed_inner.length
        = majorDim .RowOrdering matA + 1 ∧
      (compress .RowOrdering matA).compressed_inner.getD 0 0 = 0 ∧
      List.Pairwise (· ≤ ·) (compress .RowOrdering matA).compressed_inner ∧
      (compress .RowOrdering matA).compressed_inner.getD
          (majorDim .RowOrdering matA) 0
        = (compress .RowOrdering matA).compressed_outer.length ∧
      (compress .RowOrdering matA).compressed_outer.length
        = (compress .RowOrdering matA).compressed_data.length ∧
      ∀ idx, idx < majorDim .RowOrdering matA →
        List.Pairwise (· < ·) (sliceOuter (compress .RowOrdering matA) idx) ∧
        ∀ x ∈ sliceOuter (compress .RowOrdering matA) idx,
          x < minorDim .RowOrdering matA) :=
  ⟨by decide, by decide, by decide,
    c3_packed_shape .RowOrdering matA (by decide) (by decide) (by decide)⟩

/-! ### `std::find` over a stripe slice -/

theorem findInSlice_eq_none {j : Nat} :
    ∀ {sl : List Nat}, j ∉ sl → findInSlice j sl = none
  | [], _ => rfl
  | x :: t, h => by
    rw [findInSlice,
      if_neg (fun hx => h (List.mem_cons.mpr (Or.inl hx.symm))),
      findInSlice_eq_none (fun ht => h (List.mem_cons_of_mem x ht))]
    rfl

theorem findInSlice_some_of_mem {j : Nat} :
    ∀ {sl : List Nat}, j ∈ sl →
      ∃ r, findInSlice j sl = some r ∧ r < sl.length
  | [], h => absurd h (by simp)
  | x :: t, h => by
    by_cases hx : x = j
    · exact ⟨0, by rw [findInSlice, if_pos hx], by simp⟩
    · have hjt : j ∈ t := by
        rcases List.mem_cons.mp h with rfl | ht
        · exact absurd rfl hx
        · exact ht
      obtain ⟨r, hr, hrl⟩ := findInSlice_some_of_mem hjt
      refine ⟨r + 1, by rw [findInSlice, if_neg hx, hr]; rfl, by
        simp only [List.length_cons]
        omega⟩

theorem getD_set_self {γ : Type} (l : List γ) (k : Nat) (v d : γ)
    (h : k < l.length) : (l.set k v).getD k d = v := by
  rw [List.getD_eq_getElem _ _ (by rw [List.length_set]; exact h)]
  simp [List.getElem_set]

/-- The packed branch of the const accessor when the search succeeds and the
found index is in range: it returns the stored value at that index. -/
theorem constAccess_packed_found [Zero α] (ord : StorageOrder) (m2 : Matrix α)
    (i j k : Nat)
    (hcomp2 : m2.compressed = true)
    (hb2 : ¬(i ≥ m2.numrows ∨ j ≥ m2.numcols))
    (hca2 : (match ord with
             | .RowOrdering => compressed_access m2 i j
             | .ColumnOrdering => compressed_access m2 j i) = some k)
    (hk2 : k < m2.compressed_data.length) :
    constAccess ord m2 i j = .ok (m2.compressed_data.getD k 0) := by
  simp only [constAccess, if_neg hb2, hcomp2, Bool.true_eq_false, if_false, hca2]
  rw [if_pos hk2]

/-- C5.  On a packed matrix, a mutable access to a coordinate with no stored
entry (including out-of-bounds coordinates) throws the structural-immutability
error; a mutable access to a stored coordinate succeeds, and after assigning
through it the const accessor observes the new value. -/
theorem c5_packed_mutation [Zero α] (ord : StorageOrder) (m : Matrix α)
    (i j : Nat) (v : α)
    (hcomp : m.compressed = true)
    (hlen : m.compressed_outer.length = m.compressed_data.length) :
    (hasEntryPackedB ord m i j = false →
      tryWrite ord m i j v = .error .structurallyImmutable) ∧
    (hasEntryPackedB ord m i j = true →
      ∃ m2, tryWrite ord m i j v = .ok m2 ∧ constAccess ord m2 i j = .ok v) := by
  by_cases hbound : i ≥ m.numrows ∨ j ≥ m.numcols
  · constructor
    · intro _
      simp only [tryWrite, hcomp, Bool.true_eq_false, if_false, if_pos hbound]
    · intro htrue
      simp only [hasEntryPackedB, Bool.and_eq_true, decide_eq_true_eq] at htrue
      omega
  · have hlt : i < m.numrows ∧ j < m.numcols := by
      constructor <;> omega
    cases ord with
    | RowOrdering =>
      by_cases hmem : j ∈ sliceOuter m i
      · obtain ⟨r, hr, hrl⟩ := findInSlice_some_of_mem hmem
        have hrl2 : r < m.compressed_outer.length - m.compressed_inner.getD i 0 := by
          have := hrl
          rw [sliceOuter, List.length_take, List.length_drop] at this
          omega
        have hk : m.compressed_inner.getD i 0 + r < m.compressed_data.length := by
          omega
        have hca : compressed_access m i j
            = some (m.compressed_inner.getD i 0 + r) := by
          rw [compressed_access, hr]
          rfl
        constructor
        · intro hfalse
          simp only [hasEntryPackedB, Bool.and_eq_false_iff,
            decide_eq_false_iff_not] at hfalse
          rcases hfalse with (h1 | h1) | h2
          · omega
          · omega
          · exact absurd hmem h2
        · intro _
          refine ⟨{ m with compressed_data :=
              m.compressed_data.set (m.compressed_inner.getD i 0 + r) v }, ?_, ?_⟩
          · simp only [tryWrite, hcomp, Bool.true_eq_false, if_false,
              if_neg hbound, hca]
            rw [if_pos hk]
          · have hres := constAccess_packed_found .RowOrdering
              { m with compressed_data :=
                m.compressed_data.set (m.compressed_inner.getD i 0 + r) v }
              i j (m.compressed_inner.getD i 0 + r) hcomp hbound hca
              (by simpa using hk)
            rw [hres]
            exact congrArg Except.ok (getD_set_self _ _ _ _ hk)
      · have hca : compressed_access m i j = none := by
          rw [compressed_access, findInSlice_eq_none hmem]
          rfl
        constructor
        · intro _
          simp only [tryWrite, hcomp, Bool.true_eq_false, if_false,
            if_neg hbound, hca]
        · intro htrue
          simp only [hasEntryPackedB, Bool.and_eq_true, decide_eq_true_eq] at htrue
          exact absurd htrue.2 hmem
    | ColumnOrdering =>
      by_cases hmem : i ∈ sliceOuter m j
      · obtain ⟨r, hr, hrl⟩ := findInSlice_some_of_mem hmem
        have hrl2 : r < m.compressed_outer.length - m.compressed_inner.getD j 0 := by
          have := hrl
          rw [sliceOuter, List.length_take, List.length_drop] at this
          omega
        have hk : m.compressed_inner.getD j 0 + r < m.compressed_data.length := by
          omega
        have hca : compressed_access m j i
            = some (m.compressed_inner.getD j 0 + r) := by
          rw [compressed_access, hr]
          rfl
        constructor
        · intro hfalse
          simp only [hasEntryPackedB, Bool.and_eq_false_iff,
            decide_eq_false_iff_not] at hfalse
          rcases hfalse with (h1 | h1) | h2
          · omega
          · omega
          · exact absurd hmem h2
        · intro _
          refine ⟨{ m with compressed_data :=
              m.compressed_data.set (m.compressed_inner.getD j 0 + r) v }, ?_, ?_⟩
          · simp only [tryWrite, hcomp, Bool.true_eq_false, if_false,
              if_neg hbound, hca]
            rw [if_pos hk]
          · have hres := constAccess_packed_found .ColumnOrdering
              { m with compressed_data :=
                m.compressed_data.set (m.compressed_inner.getD j 0 + r) v }
              i j (m.compressed_inner.getD j 0 + r) hcomp hbound hca
              (by simpa using hk)
            rw [hres]
            exact congrArg Except.ok (getD_set_self _ _ _ _ hk)
      · have hca : compressed_access m j i = none := by
          rw [compressed_access, findInSlice_eq_none hmem]
          rfl
        constructor
        · intro _
          simp only [tryWrite, hcomp, Bool.true_eq_false, if_false,
            if_neg hbound, hca]
        · intro htrue
          simp only [hasEntryPackedB, Bool.and_eq_true, decide_eq_true_eq] at htrue
          exact absurd htrue.2 hmem

theorem c5_packed_mutation_witness :
    matAc.compressed = true ∧
    matAc.compressed_outer.length = matAc.compressed_data.length ∧
    ((hasEntryPackedB .RowOrdering matAc 1 1 = false →
        tryWrite .RowOrdering matAc 1 1 (9 : ℤ) = .error .structurallyImmutable) ∧
      (hasEntryPackedB .RowOrdering matAc 1 1 = true →
        ∃ m2, tryWrite .RowOrdering matAc 1 1 (9 : ℤ) = .ok m2 ∧
          constAccess .RowOrdering m2 1 1 = .ok 9)) :=
  ⟨by decide, by decide,
    c5_packed_mutation .RowOrdering matAc 1 1 9 (by decide) (by decide)⟩

/-- C4.  Evaluation of the mutable accessor at the out-of-bounds coordinate
`(5,1)` on a 2×2 matrix holding `(0,1) ↦ 7`: the write succeeds, but the
implementation calls `resize(i,j)` — not `resize(max(rows,i+1),
max(cols,j+1))` — so the dimensions become exactly `5×1`: `rows ≥ i+1` and
`cols ≥ j+1` both fail, and the pre-existing entry `(0,1)`, though still
stored, is no longer retrievable through the const accessor. -/
theorem c4_resize_eval :
    tryWrite .RowOrdering matC4a 5 1 (9 : ℤ) = .ok matC4b ∧
    matC4b.numrows = 5 ∧ matC4b.numcols = 1 ∧
    ¬ 5 + 1 ≤ matC4b.numrows ∧ ¬ 1 + 1 ≤ matC4b.numcols ∧
    lookupD matC4b.uncompressed_data 0 1 = 7 ∧
    constAccess .RowOrdering matC4b 0 1 = .error .indexOutOfRange := by
  decide

/-- C10.  `compress` on an expanded matrix with zero stored entries executes
`start->first` with `start = uncompressed_data.end()` (modelled `none`); the
packed empty matrix that the rest of the algorithm would produce is
`inner = [0,0,0]`, `outer = values = []`. -/
theorem c10_compress_empty_eval :
    compressChecked .RowOrdering (init 2 2 : Matrix ℤ) = none ∧
    (compress .RowOrdering (init 2 2 : Matrix ℤ)).compressed_inner
      = List.replicate 3 0 ∧
    (compress .RowOrdering (init 2 2 : Matrix ℤ)).compressed_outer = [] ∧
    (compress .RowOrdering (init 2 2 : Matrix ℤ)).compressed_data = [] := by
  decide

/-- C6 counterexample.  `A` is 2×2 (so `C = 2`) storing only `A[0,0] = 3`,
and `B` is a same-order matrix with exactly one column and `C = 2` rows
storing only `B[1,0] = 7` — an instance of the claim's quantification.  The
product `A*B` multiplies `A` by the compacted stored-value vector `[7]` and
returns `[21, 0]`, not the `[0, 0]` that the matrix-vector product with
`B`'s logical column `[0, 7]` yields. -/
theorem c6_counterexample :
    matC6A.numrows = 2 ∧ matC6A.numcols = 2 ∧
    matC6B.numrows = 2 ∧ matC6B.numcols = 1 ∧
    matMatMul .RowOrdering matC6A matC6B = .ok [21, 0] ∧
    matVec .RowOrdering matC6A (logicalColumn matC6B) = [0, 0] ∧
    ([21, 0] : List ℤ) ≠ [0, 0] := by
  decide

theorem map_lookupD_range' [Zero α] :
    ∀ (l : List ((Nat × Nat) × α)) (s : Nat),
      l.map (fun e => e.1) = (List.range' s l.length).map (fun k => (k, 0)) →
      (List.range' s l.length).map (fun k => lookupD l k 0)
        = l.map (fun e => e.2)
  | [], s, _ => by simp
  | e :: t, s, h => by
    rw [List.length_cons, List.range'_succ, List.map_cons, List.map_cons] at h ⊢
    have he1 : e.1 = (s, 0) := by
      have := congrArg (fun l => l.headD (0, 0)) h
      simpa using this
    have ht : t.map (fun e => e.1)
        = (List.range' (s + 1) t.length).map (fun k => (k, 0)) := by
      have := congrArg List.tail h
      simpa using this
    have hhead : lookupD (e :: t) s 0 = e.2 := by
      rw [lookupD, List.find?_cons_of_pos _ (by rw [he1]; simp)]
    have htail : (List.range' (s + 1) t.length).map (fun k => lookupD (e :: t) k 0)
        = (List.range' (s + 1) t.length).map (fun k => lookupD t k 0) := by
      refine List.map_congr_left (fun k hk => ?_)
      have hks : s + 1 ≤ k := (List.mem_range'_1.mp hk).1
      rw [lookupD, List.find?_cons_of_neg _ (by
        rw [he1]
        simp only [Bool.and_eq_true, beq_iff_eq, not_and]
        intro hsk
        omega), lookupD]
    rw [hhead, htail, map_lookupD_range' t (s + 1) ht]

theorem map_getD_range {γ : Type} (d : γ) :
    ∀ (l : List γ), (List.range l.length).map (fun i => l.getD i d) = l
  | [] => by simp
  | e :: t => by
    rw [List.length_cons, List.range_succ_eq_map, List.map_cons, List.map_map]
    have : (List.range t.length).map ((fun i => (e :: t).getD i d) ∘ (· + 1))
        = (List.range t.length).map (fun i => t.getD i d) := by
      refine List.map_congr_left (fun k _ => ?_)
      simp [List.getD_cons_succ]
    rw [this, map_getD_range d t, List.getD_cons_zero]

theorem pairwise_of_fullColumn (ord : StorageOrder) :
    ∀ (l : List ((Nat × Nat) × α)) (s : Nat),
      l.map (fun e => e.1) = (List.range' s l.length).map (fun k => (k, 0)) →
      List.Pairwise (entryLt ord) l
  | [], _, _ => List.Pairwise.nil
  | e :: t, s, h => by
    rw [List.length_cons, List.range'_succ, List.map_cons, List.map_cons] at h
    have he1 : e.1 = (s, 0) := by
      have := congrArg (fun l => l.headD (0, 0)) h
      simpa using this
    have ht : t.map (fun e => e.1)
        = (List.range' (s + 1) t.length).map (fun k => (k, 0)) := by
      have := congrArg List.tail h
      simpa using this
    refine List.Pairwise.cons (fun x hx => ?_)
      (pairwise_of_fullColumn ord t (s + 1) ht)
    have hx1 : x.1 ∈ (List.range' (s + 1) t.length).map (fun k => (k, 0)) := by
      rw [← ht]
      exact List.mem_map_of_mem _ hx
    rcases List.mem_map.mp hx1 with ⟨k, hk, hxk⟩
    have hks : s + 1 ≤ k := (List.mem_range'_1.mp hk).1
    show keyLt ord e.1 x.1 = true
    rw [he1, ← hxk]
    cases ord <;> simp [keyLt] <;> omega

/-- A fully stored one-column map is a single concatenation of its stripes,
for either storage order. -/
theorem fullColumn_stripesFrom (ord : StorageOrder) (b : Matrix α)
    (h1 : b.numcols = 1)
    (hkeys : b.uncompressed_data.map (fun e => e.1)
      = (List.range' 0 b.uncompressed_data.length).map (fun k => (k, 0)))
    (hlen : b.uncompressed_data.length = b.numrows) :
    stripesFrom ord b.uncompressed_data 0 (majorDim ord b)
      = b.uncompressed_data := by
  refine stripesFrom_eq_self ord (majorDim ord b) 0 b.uncompressed_data
    (pairwise_of_fullColumn ord _ 0 hkeys) (fun e he => ?_)
  have hx1 : e.1 ∈ (List.range' 0 b.uncompressed_data.length).map
      (fun k => (k, 0)) := by
    rw [← hkeys]
    exact List.mem_map_of_mem _ he
  rcases List.mem_map.mp hx1 with ⟨k, hk, hxk⟩
  have hkr := List.mem_range'_1.mp hk
  refine ⟨Nat.zero_le _, ?_⟩
  rw [← hxk]
  cases ord
  · simp only [major, majorDim]
    omega
  · simp only [major, majorDim]
    omega

theorem compress_numrows (ord : StorageOrder) (m : Matrix α) :
    (compress ord m).numrows = m.numrows := by
  simp only [compress]
  split <;> rfl

theorem compress_numcols (ord : StorageOrder) (m : Matrix α) :
    (compress ord m).numcols = m.numcols := by
  simp only [compress]
  split <;> rfl

theorem compress_compressed_true (ord : StorageOrder) (m : Matrix α)
    (hc : m.compressed = false) : (compress ord m).compressed = true := by
  simp [compress, hc]

/-- C6 amended.  For `A` of shape `R×C` and a same-order right operand with
exactly one column and `C` rows: an operand whose column count differs from
one fails with `DimensionMismatch`; when the operand stores an entry in
every row — its key list is `(0,0) … (C-1,0)`, so its compacted
stored-value vector coincides with its logical column — the product `A*B`
equals the matrix-vector product of `A` with the dense vector whose `k`-th
entry is the logical value `B[k,0]`, both for the expanded operand and for
its compressed form.  When some row stores no entry, the code instead
multiplies by the compacted stored-value vector, and the claimed equality
can fail (see the counterexample). -/
theorem c6_amended [Zero α] [Add α] [Mul α] (ord : StorageOrder)
    (a : Matrix α) :
    (∀ b : Matrix α, b.numcols ≠ 1 →
      matMatMul ord a b = .error .dimensionMismatch) ∧
    (∀ b : Matrix α, b.numrows = a.numcols → b.numcols = 1 →
      b.compressed = false →
      b.uncompressed_data.map (fun e => e.1)
          = (List.range b.numrows).map (fun k => (k, 0)) →
      matMatMul ord a b = .ok (matVec ord a (logicalColumn b))) ∧
    (∀ b : Matrix α, b.numrows = a.numcols → b.numcols = 1 →
      b.compressed = false →
      b.uncompressed_data.map (fun e => e.1)
          = (List.range b.numrows).map (fun k => (k, 0)) →
      matMatMul ord a (compress ord b)
        = .ok (matVec ord a (logicalColumn b))) := by
  refine ⟨fun b h => by simp only [matMatMul, if_pos h], ?_, ?_⟩
  · intro b _hRC h1 hB hkeys
    have hlen : b.uncompressed_data.length = b.numrows := by
      have := congrArg List.length hkeys
      simpa using this
    rw [List.range_eq_range'] at hkeys
    rw [← hlen] at hkeys
    have hcol : logicalColumn b = b.uncompressed_data.map (fun e => e.2) := by
      rw [logicalColumn, List.range_eq_range', ← hlen]
      exact map_lookupD_range' b.uncompressed_data 0 hkeys
    simp [matMatMul, h1, hB, hcol]
  · intro b _hRC h1 hB hkeys
    have hlen : b.uncompressed_data.length = b.numrows := by
      have := congrArg List.length hkeys
      simpa using this
    rw [List.range_eq_range'] at hkeys
    rw [← hlen] at hkeys
    have hcol : logicalColumn b = b.uncompressed_data.map (fun e => e.2) := by
      rw [logicalColumn, List.range_eq_range', ← hlen]
      exact map_lookupD_range' b.uncompressed_data 0 hkeys
    have hstripes := fullColumn_stripesFrom ord b h1 hkeys hlen
    have hdata : (compress ord b).compressed_data
        = b.uncompressed_data.map (fun e => e.2) := by
      rw [compress_data_eq ord b hB,
        compressGo_data ord b.uncompressed_data (majorDim ord b) 0 0, hstripes]
    have hcols2 : (compress ord b).numcols = 1 := by
      rw [compress_numcols]
      exact h1
    have hrows2 : (compress ord b).numrows = b.numrows := compress_numrows ord b
    simp only [matMatMul, hcols2, ne_eq, not_true_eq_false, if_false,
      compress_compressed_true ord b hB, if_true, eq_self_iff_true,
      hrows2, hdata]
    rw [show b.numrows = (b.uncompressed_data.map (fun e => e.2)).length by
      rw [List.length_map, hlen]]
    rw [map_getD_range, hcol]

theorem c6_amended_witness :
    matMatMul .RowOrdering matC6A matC6Bfull
      = .ok (matVec .RowOrdering matC6A (logicalColumn matC6Bfull)) ∧
    matMatMul .RowOrdering matC6A (compress .RowOrdering matC6Bfull)
      = .ok (matVec .RowOrdering matC6A (logicalColumn matC6Bfull)) :=
  ⟨(c6_amended .RowOrdering matC6A).2.1 matC6Bfull (by decide) (by decide)
      (by decide) (by decide),
    (c6_amended .RowOrdering matC6A).2.2 matC6Bfull (by decide) (by decide)
      (by decide) (by decide)⟩

/-- C7 counterexample.  On the scenario-S1 matrix the `One` norm evaluates
to `14` (not `9`: the column sums are `7, 14, 9`) and the sum of squared
magnitudes underlying the Frobenius norm evaluates to `156` (not `136`). -/
theorem c7_counterexample :
    normOne .RowOrdering matA = some 14 ∧ frobeniusSq matA = 156 ∧
    ¬ (14 : ℤ) = 9 ∧ ¬ (156 : ℤ) = 136 := by
  decide

/-- C7 amended.  For the S1 matrix: `rows = 5`, `cols = 3`,
`norm<One> = 14`, `norm<Infinity> = 14`, `norm<Frobenius> = √156`,
`A·[1,2,3] = [10,14,34,2,2]`, and every value is unchanged by
`compress`. -/
theorem c7_amended :
    matA.numrows = 5 ∧ matA.numcols = 3 ∧
    normOne .RowOrdering matA = some 14 ∧
    normInf .RowOrdering matA = some 14 ∧
    frobeniusSq matA = 156 ∧
    Real.sqrt ((frobeniusSq matA : ℤ) : ℝ) = Real.sqrt 156 ∧
    matVec .RowOrdering matA [1, 2, 3] = [10, 14, 34, 2, 2] ∧
    normOne .RowOrdering matAc = some 14 ∧
    normInf .RowOrdering matAc = some 14 ∧
    frobeniusSq matAc = 156 ∧
    Real.sqrt ((frobeniusSq matAc : ℤ) : ℝ) = Real.sqrt 156 ∧
    matVec .RowOrdering matAc [1, 2, 3] = [10, 14, 34, 2, 2] := by
  refine ⟨by decide, by decide, by decide, by decide, by decide, ?_,
    by decide, by decide, by decide, by decide, ?_, by decide⟩
  · rw [show frobeniusSq matA = 156 from by decide]
    norm_num
  · rw [show frobeniusSq matAc = 156 from by decide]
    norm_num

/-- C9 counterexample.  When the file cannot be opened, `read` prints a
message and returns normally: the caller observes a successful, unchanged
matrix, never a failure. -/
theorem c9_counterexample :
    read .RowOrdering none (init 0 0 : Matrix ℤ) = .ok (init 0 0) ∧
    read .RowOrdering none (init 0 0 : Matrix ℤ) ≠ .error .dimLineFormat ∧
    read .RowOrdering none (init 0 0 : Matrix ℤ) ≠ .error .numConv := by
  refine ⟨rfl, by decide, by decide⟩

/-- C9 amended.  `read` returns normally (no error) when the file cannot be
opened; a missing Matrix Market banner only produces a warning and parsing
continues identically to the well-formed file; a dimension line with fewer
than three tokens raises the runtime error; a non-numeric dimension or
triplet token raises the conversion error.  These last two do surface to the
caller. -/
theorem c9_amended :
    (∀ m : Matrix ℤ, read .RowOrdering none m = .ok m) ∧
    read .RowOrdering (some mmNoBanner) (init 0 0)
      = read .RowOrdering (some mmGood) (init 0 0) ∧
    read .RowOrdering (some mmGood) (init 0 0)
      = .ok { (init 2 2 : Matrix ℤ) with
              uncompressed_data := [((0, 0), 5), ((1, 1), 7)] } ∧
    read .RowOrdering (some mmBadDim) (init 0 0) = .error .dimLineFormat ∧
    read .RowOrdering (some mmBadDimToken) (init 0 0) = .error .numConv ∧
    read .RowOrdering (some mmBadTriplet) (init 0 0) = .error .numConv := by
  refine ⟨fun m => rfl, by decide, by decide, by decide, by decide, by decide⟩

theorem c9_amended_witness :
    read .RowOrdering none (init 3 4 : Matrix ℤ) = .ok (init 3 4) :=
  c9_amended.1 (init 3 4)

/-! ### Empty-matrix norms -/

theorem foldl_const {β γ : Type} :
    ∀ (l : List γ) (b : β), l.foldl (fun b _ => b) b = b
  | [], _ => rfl
  | _ :: t, b => foldl_const t b

theorem maxByAbs_zero_right (a : ℤ) : maxByAbs a 0 = a := by
  rw [maxByAbs, abs_zero, if_neg (abs_nonneg a).not_lt]

theorem foldl_maxByAbs_replicate_zero :
    ∀ (k : Nat), (List.replicate k (0 : ℤ)).foldl maxByAbs 0 = 0
  | 0 => rfl
  | k + 1 => by
    rw [List.replicate_succ, List.foldl_cons, maxByAbs_zero_right]
    exact foldl_maxByAbs_replicate_zero k

theorem maxElemByAbs_replicate_zero {n : Nat} (h : 0 < n) :
    maxElemByAbs (List.replicate n (0 : ℤ)) = some 0 := by
  cases n with
  | zero => omega
  | succ k =>
    rw [List.replicate_succ, maxElemByAbs, foldl_maxByAbs_replicate_zero k]

theorem getD_replicate {γ : Type} (n i : Nat) (x : γ) :
    (List.replicate n x).getD i x = x := by
  by_cases h : i < n
  · rw [List.getD_eq_getElem _ _ (by simpa using h)]
    exact List.getElem_replicate x _
  · rw [List.getD_eq_default _ _ (by simpa using h)]

theorem absStripeSumExp_empty (ord : StorageOrder) (m : Matrix ℤ)
    (hd : m.uncompressed_data = []) (idx : Nat) :
    absStripeSumExp ord m idx = 0 := by
  rw [absStripeSumExp, stripe, hd]
  rfl

theorem absStripeSumPacked_empty (m : Matrix ℤ) {N : Nat}
    (hi : m.compressed_inner = List.replicate N 0) (idx : Nat) :
    absStripeSumPacked m idx = 0 := by
  simp [absStripeSumPacked, hi, getD_replicate]

theorem packedColAbsSums_empty (m : Matrix ℤ) {N : Nat}
    (hi : m.compressed_inner = List.replicate N 0) :
    packedColAbsSums m = List.replicate m.numcols 0 := by
  rw [packedColAbsSums]
  simp only [hi, getD_replicate, Nat.sub_self, List.range']
  exact foldl_const _ _

theorem packedRowAbsSums_empty (m : Matrix ℤ) {N : Nat}
    (hi : m.compressed_inner = List.replicate N 0) :
    packedRowAbsSums m = List.replicate m.numrows 0 := by
  rw [packedRowAbsSums]
  simp only [hi, getD_replicate, Nat.sub_self, List.range']
  exact foldl_const _ _

theorem foldl_maxByAbs_stripeZero {f : Nat → ℤ} :
    ∀ (l : List Nat), (∀ x ∈ l, f x = 0) →
      l.foldl (fun nv x => maxByAbs nv (f x)) 0 = 0 := by
  intro l h
  have h1 : l.foldl (fun nv x => maxByAbs nv (f x)) 0
      = l.foldl (fun nv _ => nv) 0 :=
    foldl_congr_mem l _ _ (fun b e he => by rw [h e he, maxByAbs_zero_right]) 0
  rw [h1, foldl_const]

/-- C8 counterexample.  On the empty 2×0 row-ordering expanded matrix, the
`One` norm kernel takes `max_element` of an empty sums vector and
dereferences `end()` (modelled `none`): it does not return the additive
identity. -/
theorem c8_counterexample :
    normOne .RowOrdering (init 2 0 : Matrix ℤ) = none ∧
    (none : Option ℤ) ≠ some 0 := by
  decide

/-- C8 amended.  For every empty matrix — expanded with an empty map, or
packed with empty `outer`/`values` and an all-zero `inner` — the Frobenius
norm returns `0`; the `One` and `Infinity` norms return `0` whenever the
minor dimension is positive; the running-maximum kernels (`Infinity` for
row ordering, `One` for column ordering) return `0` even when it is zero.
When the minor dimension is zero, the scatter kernels dereference
`max_element` of an empty vector (modelled `none`, see the
counterexample). -/
theorem c8_amended (ord : StorageOrder) (m : Matrix ℤ)
    (hemp : (m.compressed = false ∧ m.uncompressed_data = []) ∨
      (m.compressed = true ∧ m.compressed_outer = [] ∧
        m.compressed_data = [] ∧
        m.compressed_inner = List.replicate (majorDim ord m + 1) 0)) :
    frobeniusSq m = 0 ∧
    Real.sqrt ((frobeniusSq m : ℤ) : ℝ) = 0 ∧
    (0 < minorDim ord m → normOne ord m = some 0 ∧ normInf ord m = some 0) ∧
    (ord = .RowOrdering → normInf ord m = some 0) ∧
    (ord = .ColumnOrdering → normOne ord m = some 0) := by
  have hfrob : frobeniusSq m = 0 := by
    rcases hemp with ⟨hc, hd⟩ | ⟨hc, _, hd, _⟩
    · rw [frobeniusSq, hc, if_neg (by simp), hd]
      rfl
    · rw [frobeniusSq, hc, if_pos rfl, hd]
      rfl
  refine ⟨hfrob, by rw [hfrob]; simp, ?_, ?_, ?_⟩
  · intro hmn
    rcases hemp with ⟨hc, hd⟩ | ⟨hc, ho, hd, hi⟩
    · cases ord with
      | RowOrdering =>
        constructor
        · rw [normOne, hc, if_neg (by simp)]
          have : expColAbsSums m = List.replicate m.numcols 0 := by
            rw [expColAbsSums, hd]
            rfl
          rw [this]
          exact maxElemByAbs_replicate_zero (by simpa [minorDim] using hmn)
        · rw [normInf, hc, if_neg (by simp)]
          rw [foldl_maxByAbs_stripeZero _
            (fun x _ => absStripeSumExp_empty .RowOrdering m hd x)]
      | ColumnOrdering =>
        constructor
        · rw [normOne, hc, if_neg (by simp)]
          rw [foldl_maxByAbs_stripeZero _
            (fun x _ => absStripeSumExp_empty .ColumnOrdering m hd x)]
        · rw [normInf, hc, if_neg (by simp)]
          have : expRowAbsSums m = List.replicate m.numrows 0 := by
            rw [expRowAbsSums, hd]
            rfl
          rw [this]
          exact maxElemByAbs_replicate_zero (by simpa [minorDim] using hmn)
    · cases ord with
      | RowOrdering =>
        constructor
        · rw [normOne, hc, if_pos rfl, packedColAbsSums_empty m hi]
          exact maxElemByAbs_replicate_zero (by simpa [minorDim] using hmn)
        · rw [normInf, hc, if_pos rfl]
          rw [foldl_maxByAbs_stripeZero _
            (fun x _ => absStripeSumPacked_empty m hi x)]
      | ColumnOrdering =>
        constructor
        · rw [normOne, hc, if_pos rfl]
          rw [foldl_maxByAbs_stripeZero _
            (fun x _ => absStripeSumPacked_empty m hi x)]
        · rw [normInf, hc, if_pos rfl, packedRowAbsSums_empty m hi]
          exact maxElemByAbs_replicate_zero (by simpa [minorDim] using hmn)
  · rintro rfl
    rcases hemp with ⟨hc, hd⟩ | ⟨hc, ho, hd, hi⟩
    · rw [normInf, hc, if_neg (by simp)]
      rw [foldl_maxByAbs_stripeZero _
        (fun x _ => absStripeSumExp_empty .RowOrdering m hd x)]
    · rw [normInf, hc, if_pos rfl]
      rw [foldl_maxByAbs_stripeZero _
        (fun x _ => absStripeSumPacked_empty m hi x)]
  · rintro rfl
    rcases hemp with ⟨hc, hd⟩ | ⟨hc, ho, hd, hi⟩
    · rw [normOne, hc, if_neg (by simp)]
      rw [foldl_maxByAbs_stripeZero _
        (fun x _ => absStripeSumExp_empty .ColumnOrdering m hd x)]
    · rw [normOne, hc, if_pos rfl]
      rw [foldl_maxByAbs_stripeZero _
        (fun x _ => absStripeSumPacked_empty m hi x)]

theorem c8_amended_witness :
    ((init 3 2 : Matrix ℤ).compressed = false ∧
      (init 3 2 : Matrix ℤ).uncompressed_data = []) ∧
    (0 < minorDim .RowOrdering (init 3 2 : Matrix ℤ)) ∧
    (frobeniusSq (init 3 2 : Matrix ℤ) = 0 ∧
      Real.sqrt ((frobeniusSq (init 3 2 : Matrix ℤ) : ℤ) : ℝ) = 0 ∧
      (0 < minorDim .RowOrdering (init 3 2 : Matrix ℤ) →
        normOne .RowOrdering (init 3 2 : Matrix ℤ) = some 0 ∧
        normInf .RowOrdering (init 3 2 : Matrix ℤ) = some 0) ∧
      (StorageOrder.RowOrdering = .RowOrdering →
        normInf .RowOrdering (init 3 2 : Matrix ℤ) = some 0) ∧
      (StorageOrder.RowOrdering = .ColumnOrdering →
        normOne .RowOrdering (init 3 2 : Matrix ℤ) = some 0)) :=
  ⟨⟨by decide, by decide⟩, by decide,
    c8_amended .RowOrdering (init 3 2) (Or.inl ⟨by decide, by decide⟩)⟩

end algebra
